import Mathlib

/-!
Shallow embedding of the Connections Helper import/normalization/deduplication
pipeline (`database.py` and `importer.py`) and proofs about it.

Strings are Lean `String`s; the Python string primitives used by the source
(`str.strip`, `str.lower`, `str.split`, `str.join`, `in`, `str.replace`) are
modelled on `List Char` below.  Python's `str.lower` is modelled as ASCII case
folding (the inputs the source deals with are ASCII column values, and SQLite's
`NOCASE` collation used by the queries folds ASCII only).
-/

namespace ConnectionsHelper

/-- Whitespace characters recognised by Python's `str.strip` / `str.split`
(ASCII range). -/
def isPySpace (c : Char) : Bool :=
  c = ' ' || c = '\t' || c = '\n' || c = '\r' || c = '\x0b' || c = '\x0c'

/-- Model of Python `str.strip()` on the character list. -/
def stripChars (l : List Char) : List Char :=
  ((l.dropWhile isPySpace).reverse.dropWhile isPySpace).reverse

/-- Model of Python `str.strip()` on `String`. -/
def pyStrip (s : String) : String :=
  ⟨stripChars s.data⟩

/-- ASCII case folding of one character, the model of Python `str.lower()`
(per character). -/
def lowerChar (c : Char) : Char :=
  if 65 ≤ c.toNat ∧ c.toNat ≤ 90 then Char.ofNat (c.toNat + 32) else c

/-- Model of Python `str.lower()`. -/
def pyLower (l : List Char) : List Char :=
  l.map lowerChar

/-- Model of Python `str.split()` (split on whitespace runs, dropping empty
parts). -/
def words : List Char → List (List Char)
  | [] => []
  | c :: t =>
    if isPySpace c then words t
    else
      match t, words t with
      | [], _ => [[c]]
      | _ :: _, [] => [[c]]
      | d :: _, w :: ws => if isPySpace d then [c] :: w :: ws else (c :: w) :: ws

/-- Model of Python `" ".join(ws)`. -/
def joinSp : List (List Char) → List Char
  | [] => []
  | [w] => w
  | w :: ws => w ++ ' ' :: joinSp ws

/-- Composition `" ".join(l.split())`: collapse whitespace runs to single
spaces and trim. -/
def collapse (l : List Char) : List Char :=
  joinSp (words l)

/-- Decides whether `pat` is a prefix of the second list (helper for the model
of Python's `in` substring test). -/
def isPfxL : List Char → List Char → Bool
  | [], _ => true
  | _ :: _, [] => false
  | a :: as, b :: bs => a == b && isPfxL as bs

/-- Model of Python's `pat in l` substring test. -/
def isSubL (pat : List Char) : List Char → Bool
  | [] => isPfxL pat []
  | c :: t => isPfxL pat (c :: t) || isSubL pat t

/-- Model of Python `l.split(",")` (keeps empty parts). -/
def splitComma : List Char → List (List Char)
  | [] => [[]]
  | c :: t =>
    if c = ',' then [] :: splitComma t
    else
      match splitComma t with
      | [] => [[c]]
      | g :: gs => (c :: g) :: gs

/-- Case-sensitive lexicographic order on character lists by code point,
used to model SQLite's `ORDER BY ... COLLATE NOCASE` after ASCII folding. -/
def lexLE : List Char → List Char → Bool
  | [], _ => true
  | _ :: _, [] => false
  | a :: as, b :: bs =>
    if a.toNat < b.toNat then true
    else if b.toNat < a.toNat then false
    else lexLE as bs

/-- Sentinel company label (`OTHER_NAME` in `database.py`). -/
def OTHER_NAME : String := "Other_Unknown"

/-- Sentinel substrings checked by `Database.norm_company`. -/
def sentinelKeywords : List String :=
  ["self", "freelance", "independent", "unknown", "n/a"]

/-- `any(k in n for k in [...])` from `Database.norm_company`. -/
def containsKeyword (n : List Char) : Bool :=
  sentinelKeywords.any fun k => isSubL k.data n

/-- Model of `Database.norm_company` (`database.py` lines 86-94):
`if not name: return OTHER_NAME`; `n = name.strip().lower()`;
`if any(k in n for k in [...]): return OTHER_NAME`;
`return " ".join(n.split())`. -/
def norm_company (name : String) : String :=
  if name = "" then OTHER_NAME
  else if containsKeyword (pyLower (stripChars name.data)) then OTHER_NAME
  else ⟨collapse (pyLower (stripChars name.data))⟩

/-- Model of `Database.norm_position` (`database.py` lines 96-99):
`" ".join((p or "").strip().lower().split())`. -/
def norm_position (p : String) : String :=
  ⟨collapse (pyLower (stripChars p.data))⟩

/-- Row of the `companies` table. -/
structure Company where
  id : Nat
  name_original : String
  name_norm : String
deriving DecidableEq

/-- Row of the `positions` table. -/
structure Position where
  id : Nat
  name_original : String
  name_norm : String
deriving DecidableEq

/-- Row of the `people` table (`visited INTEGER DEFAULT 0` modelled as `Bool`). -/
structure Person where
  id : Nat
  first_name : String
  last_name : String
  url : String
  email : String
  company_id : Nat
  position_raw : String
  visited : Bool
deriving DecidableEq

/-- In-memory model of the SQLite database: the five tables of
`Database.create_tables`, plus the next fresh `INTEGER PRIMARY KEY` value for
each table that the code inserts into. -/
structure DB where
  companies : List Company
  positions : List Position
  people : List Person
  person_positions : List (Nat × Nat)
  settings : List (String × String)
  nextCompanyId : Nat
  nextPositionId : Nat
  nextPersonId : Nat
deriving DecidableEq

/-- Empty database (fresh tables). -/
def emptyDB : DB :=
  ⟨[], [], [], [], [], 0, 0, 0⟩

/-- Model of `Database.get_setting`. -/
def get_setting (db : DB) (key : String) : Option String :=
  (db.settings.find? fun kv => kv.1 = key).map fun kv => kv.2

/-- Model of `Database.set_setting` (`INSERT ... ON CONFLICT(key) DO UPDATE`). -/
def set_setting (db : DB) (key value : String) : DB :=
  if db.settings.any fun kv => kv.1 = key then
    { db with settings := db.settings.map fun kv => if kv.1 = key then (key, value) else kv }
  else
    { db with settings := db.settings ++ [(key, value)] }

/-- Model of the settings-seeding step of `Database.__init__` (lines 26-27):
`if self.get_setting("employee_threshold") is None: self.set_setting("employee_threshold", "10")`. -/
def initThresholdSetting (db : DB) : DB :=
  if get_setting db "employee_threshold" = none then
    set_setting db "employee_threshold" "10"
  else db

/-- `SELECT id FROM companies WHERE name_norm=?` (first matching row). -/
def lookupCompany (db : DB) (norm : String) : Option Nat :=
  (db.companies.find? fun c => c.name_norm = norm).map fun c => c.id

/-- Model of `Database.get_or_create_company`; returns the id and the updated
database. `name or OTHER_NAME` stores the sentinel label when `name` is empty. -/
def get_or_create_company (db : DB) (name : String) : Nat × DB :=
  let norm := norm_company name
  match lookupCompany db norm with
  | some i => (i, db)
  | none =>
    (db.nextCompanyId,
      { db with
        companies := db.companies ++
          [⟨db.nextCompanyId, if name = "" then OTHER_NAME else name, norm⟩]
        nextCompanyId := db.nextCompanyId + 1 })

/-- `SELECT id FROM positions WHERE name_norm=?` (first matching row). -/
def lookupPosition (db : DB) (norm : String) : Option Nat :=
  (db.positions.find? fun p => p.name_norm = norm).map fun p => p.id

/-- Model of `Database.get_or_create_position`. -/
def get_or_create_position (db : DB) (pos : String) : Nat × DB :=
  let norm := norm_position pos
  match lookupPosition db norm with
  | some i => (i, db)
  | none =>
    (db.nextPositionId,
      { db with
        positions := db.positions ++ [⟨db.nextPositionId, pos, norm⟩]
        nextPositionId := db.nextPositionId + 1 })

/-- Model of `Database.person_exists` (`database.py` lines 127-135): a url
match (checked only when `url` is non-empty) or an exact
`(first_name, last_name, company_id)` match. -/
def person_exists (db : DB) (f l : String) (cid : Nat) (u : String) : Bool :=
  (decide (u ≠ "") && db.people.any fun p => p.url = u) ||
    db.people.any fun p => p.first_name = f && p.last_name = l && p.company_id = cid

/-- Model of `Database.add_person`: unconditional insert, `visited` defaults
to false; returns the new row id. -/
def add_person (db : DB) (f l u e : String) (cid : Nat) (pos : String) : Nat × DB :=
  (db.nextPersonId,
    { db with
      people := db.people ++ [⟨db.nextPersonId, f, l, u, e, cid, pos, false⟩]
      nextPersonId := db.nextPersonId + 1 })

/-- One iteration of the loop in `Database.link_positions`: skip blank texts,
resolve through `get_or_create_position`, `INSERT OR IGNORE` into the join
table. -/
def linkOne (pid : Nat) (db : DB) (p : String) : DB :=
  if stripChars p.data = [] then db
  else
    let r := get_or_create_position db p
    if (pid, r.1) ∈ r.2.person_positions then r.2
    else { r.2 with person_positions := r.2.person_positions ++ [(pid, r.1)] }

/-- Model of `Database.link_positions` (`database.py` lines 147-155). -/
def link_positions (db : DB) (pid : Nat) (poslist : List String) : DB :=
  poslist.foldl (linkOne pid) db

/-- Model of `Database.mark_visited` (`UPDATE people SET visited=1 WHERE id=?`
executed for each id). -/
def mark_visited (db : DB) (ids : List Nat) : DB :=
  ids.foldl
    (fun db i =>
      { db with people := db.people.map fun p => if p.id = i then { p with visited := true } else p })
    db

/-- Model of `Database.unmark_visited` (`UPDATE people SET visited=0 WHERE id=?`
executed for each id). -/
def unmark_visited (db : DB) (ids : List Nat) : DB :=
  ids.foldl
    (fun db i =>
      { db with people := db.people.map fun p => if p.id = i then { p with visited := false } else p })
    db

/-- Model of `Database.visited_stats`: `(visited_count, total_count)`. -/
def visited_stats (db : DB) : Nat × Nat :=
  (db.people.countP (fun p => p.visited), db.people.length)

/-- Number of people rows with the given `company_id` (the per-group
`COUNT(p.id)` of `Database.companies`). -/
def personCount (db : DB) (cid : Nat) : Nat :=
  db.people.countP fun p => p.company_id = cid

/-- Model of Python `int(s)` on a stripped optionally-signed ASCII numeral;
`none` models the `ValueError` raised on anything else. -/
def pyInt : String → Option Int := fun s =>
  let digitsVal : List Char → Option Int := fun l =>
    if l ≠ [] ∧ l.all (fun c => c.isDigit) then
      some (l.foldl (fun a c => a * 10 + ((c.toNat : Int) - 48)) 0)
    else none
  match stripChars s.data with
  | '+' :: ds => digitsVal ds
  | '-' :: ds => (digitsVal ds).map Neg.neg
  | ds => digitsVal ds

/-- Threshold computation of `Database.companies` (line 229):
`int(self.get_setting("employee_threshold") or 3)`; `none` models the
exception when the stored value is not a numeral. -/
def employee_threshold (db : DB) : Option Int :=
  match get_setting db "employee_threshold" with
  | none => some 3
  | some v => if v = "" then some 3 else pyInt v

/-- ASCII-folded sort key of a company row, modelling
`ORDER BY c.name_original COLLATE NOCASE`. -/
def ciKey (c : Company) : List Char :=
  pyLower c.name_original.data

/-- Model of `Database.companies` (`database.py` lines 227-238): inner-join
with `people`, group by company, keep groups with `COUNT(p.id) >=` the
threshold, order by company name case-insensitively.  Returns each kept
company together with its person count; `none` models the exception path of
the threshold parse. -/
def companiesQuery (db : DB) : Option (List (Company × Nat)) :=
  (employee_threshold db).map fun t =>
    List.insertionSort (fun a b => lexLE (ciKey a.1) (ciKey b.1) = true)
      (db.companies.filterMap fun c =>
        if 1 ≤ personCount db c.id ∧ t ≤ (personCount db c.id : Int) then
          some (c, personCount db c.id)
        else none)

/-- Required header column names of `import_csv`. -/
def REQUIRED_COLUMNS : List String :=
  ["First Name", "Last Name", "URL", "Email Address", "Company", "Position", "Connected On"]

/-- Header-row test of `import_csv`:
`set([c.strip() for c in r]) >= REQUIRED_COLUMNS`. -/
def isHeaderRow (r : List String) : Bool :=
  REQUIRED_COLUMNS.all fun col => (r.map pyStrip).contains col

/-- Header-row index: first row passing `isHeaderRow`, defaulting to 0 when
none does (`header_i` stays at its initial value). -/
def headerIndex (rows : List (List String)) : Nat :=
  match rows.findIdx? isHeaderRow with
  | some i => i
  | none => 0

/-- A parsed data row: the `dict(zip(hdr, r))` pairs. -/
abbrev Row := List (String × String)

/-- Model of `(r.get(k) or "")` on a `dict(zip(hdr, r))` row: the value of the
last pair whose key is `k` (later duplicate keys overwrite earlier ones in a
Python dict), or `""` when the key is absent. -/
def getField (r : Row) (k : String) : String :=
  match (r.filter fun kv => kv.1 = k).getLast? with
  | some kv => kv.2
  | none => ""

/-- Data rows of the file: the rows after the header row, dropping rows whose
cells are all empty (`if any(r)` — a cell is truthy iff it is a non-empty
string), each zipped with the header (`zip` truncates to the shorter list). -/
def dataRows (rows : List (List String)) : List Row :=
  let hi := headerIndex rows
  let hdr := (rows.drop hi).headD []
  ((rows.drop (hi + 1)).filter fun r => r.any fun c => decide (c ≠ "")).map hdr.zip

/-- Duplicate-report string: `f"{f} {l}".strip() or "(no name)"`. -/
def dupName (f l : String) : String :=
  let s := pyStrip (f ++ " " ++ l)
  if s = "" then "(no name)" else s

/-- The `&`/`|` to `,` rewriting of the position splitter (`str.replace` with
single-character arguments is a character map). -/
def ampPipeToComma (c : Char) : Char :=
  if c = '&' then ',' else if c = '|' then ',' else c

/-- Position splitting of `import_csv` (lines 46-50): if any of the five
separators occurs in `pos`, rewrite `&` and `|` to `,`, split on `,` and strip
each part (the loop body is identical for every separator, so only the
presence test depends on which separator is found); otherwise the single-item
list `[pos]`. -/
def splitPositions (pos : String) : List String :=
  if ["/", ";", "|", "&", ","].any (fun sep => isSubL sep.data pos.data) then
    (splitComma (pos.data.map ampPipeToComma)).map fun p => (⟨stripChars p⟩ : String)
  else [pos]

/-- Loop body of `import_csv` over one mapped data row, threading the database
and the accumulated duplicates list. -/
def processRow (st : DB × List String) (r : Row) : DB × List String :=
  let f := pyStrip (getField r "First Name")
  let l := pyStrip (getField r "Last Name")
  if f = "" ∧ l = "" then st
  else
    let u := pyStrip (getField r "URL")
    let e := pyStrip (getField r "Email Address")
    let comp := pyStrip (getField r "Company")
    let pos := pyStrip (getField r "Position")
    let rc := get_or_create_company st.1 comp
    if person_exists rc.2 f l rc.1 u then (rc.2, st.2 ++ [dupName f l])
    else
      let rp := add_person rc.2 f l u e rc.1 pos
      (link_positions rp.2 rp.1 (splitPositions pos), st.2)

/-- Model of `import_csv` (`importer.py`), starting from the parsed cell rows
of the file.  Returns the duplicates list and the updated database; `none`
models the `IndexError` of `rows[header_i]` on a file with no rows at all. -/
def import_csv (rows : List (List String)) (db : DB) : Option (List String × DB) :=
  if rows = [] then none
  else
    let st := (dataRows rows).foldl processRow (db, [])
    some (st.2, st.1)

/-- Rows that are not skipped by the name check of `import_csv`
(`if not f and not l: continue`). -/
def nonEmptyName (r : Row) : Bool :=
  !(pyStrip (getField r "First Name") = "" && pyStrip (getField r "Last Name") = "")

/-- Is the first character (if any) not whitespace? -/
def headNonspace : List Char → Bool
  | [] => true
  | c :: _ => !isPySpace c

/-- Has the list no adjacent pair of whitespace characters? -/
def noAdjWS : List Char → Bool
  | [] => true
  | [_] => true
  | a :: b :: t => !(isPySpace a && isPySpace b) && noAdjWS (b :: t)

/-- No leading, no trailing and no doubled whitespace. -/
def noBadWhitespace (l : List Char) : Bool :=
  headNonspace l && headNonspace l.reverse && noAdjWS l

/-- Word lists produced by splitting: nonempty and whitespace-free words. -/
def GoodWords (ws : List (List Char)) : Prop :=
  ∀ w ∈ ws, w ≠ [] ∧ ∀ c ∈ w, isPySpace c = false

/-- Monotonicity relation between database states: company lookups stay
stable and people are never removed. -/
def Mon (db db' : DB) : Prop :=
  (∀ n i, lookupCompany db n = some i → lookupCompany db' n = some i) ∧
  (∀ p, p ∈ db.people → p ∈ db'.people)

/-- A data row is satisfied by a database state: its company resolves by
lookup (without an insert) and the person is reported as existing. -/
def rowSat (db : DB) (r : Row) : Prop :=
  ∃ cid, lookupCompany db (norm_company (pyStrip (getField r "Company"))) = some cid ∧
    person_exists db (pyStrip (getField r "First Name")) (pyStrip (getField r "Last Name"))
      cid (pyStrip (getField r "URL")) = true

/-- Frame relation for imports: people rows and join rows are only appended,
and every appended join row refers to a person id at or above the old
high-water mark. -/
def ExtDB (db db' : DB) : Prop :=
  (∃ ns, db'.people = db.people ++ ns) ∧
  db.nextPersonId ≤ db'.nextPersonId ∧
  ∃ nl, db'.person_positions = db.person_positions ++ nl ∧
    ∀ x ∈ nl, db.nextPersonId ≤ x.1

/-! ### Lemmas about the character-level primitives -/

theorem toNat_ofNat_valid (n : Nat) (h : n.isValidChar) : (Char.ofNat n).toNat = n := by
  simp only [Char.ofNat, h, dite_true, Char.ofNatAux, Char.toNat, UInt32.toNat,
    BitVec.toNat_ofNatLt]

theorem lowerChar_toNat (c : Char) :
    (lowerChar c).toNat = if 65 ≤ c.toNat ∧ c.toNat ≤ 90 then c.toNat + 32 else c.toNat := by
  unfold lowerChar
  split
  · next h => exact toNat_ofNat_valid _ (Or.inl (by omega))
  · rfl

theorem lowerChar_lowerChar (c : Char) : lowerChar (lowerChar c) = lowerChar c := by
  by_cases h : 65 ≤ c.toNat ∧ c.toNat ≤ 90
  · have ht : (lowerChar c).toNat = c.toNat + 32 := by rw [lowerChar_toNat, if_pos h]
    show (if 65 ≤ (lowerChar c).toNat ∧ (lowerChar c).toNat ≤ 90 then _ else _) = lowerChar c
    rw [if_neg]
    omega
  · have hc : lowerChar c = c := by unfold lowerChar; rw [if_neg h]
    rw [hc]; exact hc

theorem isPySpace_toNat (c : Char) :
    isPySpace c =
      (c.toNat = 32 || c.toNat = 9 || c.toNat = 10 || c.toNat = 13 || c.toNat = 11 ||
        c.toNat = 12) := by
  have h : ∀ d : Char, (c = d) = (c.toNat = d.toNat) := by
    intro d
    apply propext
    constructor
    · intro h; rw [h]
    · intro h
      apply Char.eq_of_val_eq
      apply UInt32.eq_of_toBitVec_eq
      apply BitVec.eq_of_toNat_eq
      exact h
  simp only [isPySpace, decide_eq_decide.mpr (iff_of_eq (h _))]
  rfl

theorem isPySpace_lowerChar (c : Char) : isPySpace (lowerChar c) = isPySpace c := by
  have A : ∀ n : Nat, ¬ (n = 32 ∨ n = 9 ∨ n = 10 ∨ n = 13 ∨ n = 11 ∨ n = 12) →
      (decide (n = 32) || decide (n = 9) || decide (n = 10) || decide (n = 13) ||
        decide (n = 11) || decide (n = 12)) = false := by
    intro n hn
    simp only [Bool.or_eq_false_iff, decide_eq_false_iff_not]
    tauto
  rw [isPySpace_toNat, isPySpace_toNat, lowerChar_toNat]
  by_cases h : 65 ≤ c.toNat ∧ c.toNat ≤ 90
  · rw [if_pos h, A (c.toNat + 32) (by omega), A c.toNat (by omega)]
  · rw [if_neg h]

theorem mem_pyLower_fixed {l : List Char} {c : Char} (h : c ∈ pyLower l) :
    lowerChar c = c := by
  obtain ⟨d, _, rfl⟩ := List.mem_map.mp h
  exact lowerChar_lowerChar d

theorem map_eq_self_of_fixed {f : Char → Char} {l : List Char} (h : ∀ c ∈ l, f c = c) :
    l.map f = l := by
  induction l with
  | nil => rfl
  | cons c t ih =>
    simp only [List.map_cons, h c (List.mem_cons_self c t)]
    rw [ih fun d hd => h d (List.mem_cons_of_mem c hd)]

theorem headNonspace_dropWhile (l : List Char) :
    headNonspace (l.dropWhile isPySpace) = true := by
  induction l with
  | nil => rfl
  | cons c t ih =>
    rw [List.dropWhile_cons]
    by_cases h : isPySpace c = true
    · rw [if_pos h]; exact ih
    · rw [if_neg h]
      simp [headNonspace, Bool.eq_false_iff.mpr h]

theorem headNonspace_of_spacefree {m : List Char} (h : ∀ c ∈ m, isPySpace c = false) :
    headNonspace m = true := by
  cases m with
  | nil => rfl
  | cons c t => simp [headNonspace, h c (List.mem_cons_self c t)]

theorem headNonspace_revdrop {m : List Char} (h : headNonspace m = true) :
    headNonspace ((m.reverse.dropWhile isPySpace).reverse) = true := by
  cases m with
  | nil => rfl
  | cons c t =>
    have hc : isPySpace c = false := by
      simpa [headNonspace] using h
    obtain ⟨s, hs⟩ := (List.dropWhile_suffix isPySpace :
        (c :: t).reverse.dropWhile isPySpace <:+ (c :: t).reverse)
    rcases List.eq_nil_or_concat ((c :: t).reverse.dropWhile isPySpace) with hnil | ⟨ys, a, hy⟩
    · rw [hnil]; rfl
    · rw [List.concat_eq_append] at hy
      rw [hy]
      have hlast : a = c := by
        rw [hy] at hs
        have h1 : (s ++ (ys ++ [a])).getLast? = some a := by
          rw [← List.append_assoc]
          exact List.getLast?_concat _
        have h2 : ((c :: t).reverse).getLast? = some c := by
          rw [List.reverse_cons]
          exact List.getLast?_concat _
        rw [hs] at h1
        simpa using h1.symm.trans h2
      rw [List.reverse_append, List.reverse_cons, List.reverse_nil, List.nil_append,
        List.singleton_append]
      simp [headNonspace, hlast, hc]

theorem headNonspace_stripChars (l : List Char) : headNonspace (stripChars l) = true :=
  headNonspace_revdrop (headNonspace_dropWhile l)

theorem headNonspace_reverse_stripChars (l : List Char) :
    headNonspace (stripChars l).reverse = true := by
  unfold stripChars
  rw [List.reverse_reverse]
  exact headNonspace_dropWhile _

theorem dropWhile_eq_self_of_headNonspace {m : List Char} (h : headNonspace m = true) :
    m.dropWhile isPySpace = m := by
  cases m with
  | nil => rfl
  | cons c t =>
    have hc : isPySpace c = false := by simpa [headNonspace] using h
    rw [List.dropWhile_cons, hc]
    simp

theorem stripChars_eq_self {m : List Char} (h1 : headNonspace m = true)
    (h2 : headNonspace m.reverse = true) : stripChars m = m := by
  unfold stripChars
  rw [dropWhile_eq_self_of_headNonspace h1, dropWhile_eq_self_of_headNonspace h2,
    List.reverse_reverse]

/-! ### Lemmas about `words` and `joinSp` -/

theorem words_nil : words [] = [] := rfl

theorem words_cons_eq (c : Char) (t : List Char) :
    words (c :: t) =
      if isPySpace c then words t
      else
        match t, words t with
        | [], _ => [[c]]
        | _ :: _, [] => [[c]]
        | d :: _, w :: ws => if isPySpace d then [c] :: w :: ws else (c :: w) :: ws := rfl

theorem words_cons_space {c : Char} {t : List Char} (h : isPySpace c = true) :
    words (c :: t) = words t := by
  rw [words_cons_eq, if_pos h]

theorem words_singleton {c : Char} (h : isPySpace c = false) : words [c] = [[c]] := by
  rw [words_cons_eq, if_neg (by rw [h]; exact Bool.false_ne_true)]

theorem words_ne_nil {c : Char} {t : List Char} (h : isPySpace c = false) :
    words (c :: t) ≠ [] := by
  rw [words_cons_eq, if_neg (by rw [h]; exact Bool.false_ne_true)]
  split
  · exact List.cons_ne_nil _ _
  · exact List.cons_ne_nil _ _
  · split
    · exact List.cons_ne_nil _ _
    · exact List.cons_ne_nil _ _

theorem words_cons_cons_space {c d : Char} {t : List Char} (hc : isPySpace c = false)
    (hd : isPySpace d = true) : words (c :: d :: t) = [c] :: words (d :: t) := by
  rw [words_cons_eq, if_neg (by rw [hc]; exact Bool.false_ne_true)]
  cases h : words (d :: t) with
  | nil => rfl
  | cons w ws =>
    show (if isPySpace d then [c] :: w :: ws else (c :: w) :: ws) = _
    rw [if_pos hd]

theorem words_cons_cons_nonspace {c d : Char} {t : List Char} {w : List Char}
    {ws : List (List Char)} (hc : isPySpace c = false) (hd : isPySpace d = false)
    (h : words (d :: t) = w :: ws) : words (c :: d :: t) = (c :: w) :: ws := by
  rw [words_cons_eq, if_neg (by rw [hc]; exact Bool.false_ne_true), h]
  show (if isPySpace d then [c] :: w :: ws else (c :: w) :: ws) = _
  rw [if_neg (by rw [hd]; exact Bool.false_ne_true)]

theorem words_sound : ∀ l : List Char, GoodWords (words l) := by
  intro l
  induction l with
  | nil => intro w hw; rw [words_nil] at hw; exact absurd hw (List.not_mem_nil w)
  | cons c t ih =>
    by_cases hc : isPySpace c = true
    · rw [words_cons_space hc]; exact ih
    · replace hc : isPySpace c = false := Bool.eq_false_iff.mpr hc
      cases t with
      | nil =>
        rw [words_singleton hc]
        intro w hw
        rcases List.mem_singleton.mp hw with rfl
        refine ⟨by simp, ?_⟩
        intro x hx
        rcases List.mem_singleton.mp hx with rfl
        exact hc
      | cons d t' =>
        by_cases hd : isPySpace d = true
        · rw [words_cons_cons_space hc hd]
          intro w hw
          rcases List.mem_cons.mp hw with rfl | hw'
          · exact ⟨by simp, fun x hx => by rcases List.mem_singleton.mp hx with rfl; exact hc⟩
          · exact ih w hw'
        · replace hd : isPySpace d = false := Bool.eq_false_iff.mpr hd
          cases h : words (d :: t') with
          | nil => exact absurd h (words_ne_nil hd)
          | cons w0 ws0 =>
            rw [words_cons_cons_nonspace hc hd h]
            intro w hw
            rcases List.mem_cons.mp hw with rfl | hw'
            · have h0 := ih w0 (h ▸ List.mem_cons_self w0 ws0)
              refine ⟨by simp, ?_⟩
              intro x hx
              rcases List.mem_cons.mp hx with rfl | hx'
              · exact hc
              · exact h0.2 x hx'
            · exact ih w (h ▸ List.mem_cons_of_mem w0 hw')

theorem words_shape_lemma : ∀ l : List Char,
    (∀ w ∈ words l, w <:+: l) ∧
    (∀ c t, l = c :: t → isPySpace c = false →
      ∃ w ws, words l = w :: ws ∧ w <+: l) := by
  intro l
  induction l with
  | nil =>
    refine ⟨fun w hw => ?_, fun c t h => by simp at h⟩
    rw [words_nil] at hw
    exact absurd hw (List.not_mem_nil w)
  | cons c t ih =>
    by_cases hc : isPySpace c = true
    · rw [words_cons_space hc]
      refine ⟨fun w hw => List.infix_cons (ih.1 w hw), ?_⟩
      intro c' t' he hns
      injection he with h1 h2
      subst h1
      rw [hc] at hns
      exact absurd hns (by simp)
    · replace hc : isPySpace c = false := Bool.eq_false_iff.mpr hc
      cases t with
      | nil =>
        rw [words_singleton hc]
        constructor
        · intro w hw
          rcases List.mem_singleton.mp hw with rfl
          exact List.infix_refl _
        · intro c' t' he _
          exact ⟨[c], [], rfl, List.prefix_refl _⟩
      | cons d t' =>
        by_cases hd : isPySpace d = true
        · rw [words_cons_cons_space hc hd]
          constructor
          · intro w hw
            rcases List.mem_cons.mp hw with rfl | hw'
            · exact List.IsPrefix.isInfix ⟨d :: t', rfl⟩
            · exact List.infix_cons (ih.1 w hw')
          · intro c'' t'' he _
            exact ⟨[c], words (d :: t'), rfl, ⟨d :: t', rfl⟩⟩
        · replace hd : isPySpace d = false := Bool.eq_false_iff.mpr hd
          obtain ⟨w0, ws0, hw0, hpfx⟩ := ih.2 d t' rfl hd
          rw [words_cons_cons_nonspace hc hd hw0]
          have hpfx' : (c :: w0) <+: (c :: d :: t') := by
            rw [List.cons_prefix_cons]
            exact ⟨rfl, hpfx⟩
          constructor
          · intro w hw
            rcases List.mem_cons.mp hw with rfl | hw'
            · exact hpfx'.isInfix
            · exact List.infix_cons (ih.1 w (hw0 ▸ List.mem_cons_of_mem w0 hw'))
          · intro c'' t'' _ _
            exact ⟨c :: w0, ws0, rfl, hpfx'⟩

theorem infix_of_mem_words {l w : List Char} (h : w ∈ words l) : w <:+: l :=
  (words_shape_lemma l).1 w h

theorem words_spacefree_single {w : List Char} (hne : w ≠ [])
    (hsf : ∀ c ∈ w, isPySpace c = false) : words w = [w] := by
  induction w with
  | nil => exact absurd rfl hne
  | cons c t ih =>
    have hc : isPySpace c = false := hsf c (List.mem_cons_self c t)
    cases t with
    | nil => exact words_singleton hc
    | cons d t' =>
      have hd : isPySpace d = false := hsf d (by simp)
      have ht : words (d :: t') = [d :: t'] :=
        ih (by simp) fun x hx => hsf x (List.mem_cons_of_mem c hx)
      exact words_cons_cons_nonspace hc hd ht

theorem words_append_space {w R : List Char} (hne : w ≠ [])
    (hsf : ∀ c ∈ w, isPySpace c = false) :
    words (w ++ ' ' :: R) = w :: words R := by
  induction w with
  | nil => exact absurd rfl hne
  | cons c t ih =>
    have hc : isPySpace c = false := hsf c (List.mem_cons_self c t)
    cases t with
    | nil =>
      rw [List.singleton_append, words_cons_cons_space hc (by decide),
        words_cons_space (by decide)]
    | cons d t' =>
      have hd : isPySpace d = false := hsf d (by simp)
      have ht : words ((d :: t') ++ ' ' :: R) = (d :: t') :: words R :=
        ih (by simp) fun x hx => hsf x (List.mem_cons_of_mem c hx)
      rw [List.cons_append]
      exact words_cons_cons_nonspace hc hd (by rw [List.cons_append] at ht; exact ht)

theorem words_joinSp {ws : List (List Char)} (h : GoodWords ws) :
    words (joinSp ws) = ws := by
  induction ws with
  | nil => rfl
  | cons w ws' ih =>
    cases ws' with
    | nil =>
      show words w = [w]
      exact words_spacefree_single (h w (by simp)).1 (h w (by simp)).2
    | cons w2 ws'' =>
      show words (w ++ ' ' :: joinSp (w2 :: ws'')) = w :: (w2 :: ws'')
      rw [words_append_space (h w (by simp)).1 (h w (by simp)).2]
      rw [ih fun v hv => h v (List.mem_cons_of_mem w hv)]

theorem joinSp_cons_cons (w w2 : List Char) (ws : List (List Char)) :
    joinSp (w :: w2 :: ws) = w ++ ' ' :: joinSp (w2 :: ws) := rfl

theorem joinSp_ne_nil {w : List Char} {ws : List (List Char)} (hw : w ≠ []) :
    joinSp (w :: ws) ≠ [] := by
  cases ws with
  | nil => exact hw
  | cons w2 ws' =>
    rw [joinSp_cons_cons]
    intro h
    exact hw (List.append_eq_nil.mp h).1

theorem mem_joinSp {ws : List (List Char)} {c : Char} (h : c ∈ joinSp ws) :
    (∃ w ∈ ws, c ∈ w) ∨ c = ' ' := by
  induction ws with
  | nil => exact absurd h (List.not_mem_nil c)
  | cons w ws' ih =>
    cases ws' with
    | nil => exact Or.inl ⟨w, by simp, h⟩
    | cons w2 ws'' =>
      rw [joinSp_cons_cons] at h
      rcases List.mem_append.mp h with hw | hr
      · exact Or.inl ⟨w, by simp, hw⟩
      · rcases List.mem_cons.mp hr with rfl | hj
        · exact Or.inr rfl
        · rcases ih hj with ⟨v, hv, hcv⟩ | hsp
          · exact Or.inl ⟨v, List.mem_cons_of_mem w hv, hcv⟩
          · exact Or.inr hsp

theorem headNonspace_joinSp {ws : List (List Char)} (h : GoodWords ws) :
    headNonspace (joinSp ws) = true := by
  cases ws with
  | nil => rfl
  | cons w ws' =>
    have hw := h w (by simp)
    cases hw' : w with
    | nil => exact absurd hw' hw.1
    | cons a t =>
      have ha : isPySpace a = false := hw.2 a (hw' ▸ List.mem_cons_self a t)
      cases ws' with
      | nil => show headNonspace (a :: t) = true; simp [headNonspace, ha]
      | cons w2 ws'' =>
        rw [joinSp_cons_cons, List.cons_append]
        simp [headNonspace, ha]

theorem headNonspace_reverse_joinSp {ws : List (List Char)} (h : GoodWords ws) :
    headNonspace (joinSp ws).reverse = true := by
  induction ws with
  | nil => rfl
  | cons w ws' ih =>
    cases ws' with
    | nil =>
      show headNonspace w.reverse = true
      apply headNonspace_of_spacefree
      intro c hcm
      exact (h w (by simp)).2 c (List.mem_reverse.mp hcm)
    | cons w2 ws'' =>
      rw [joinSp_cons_cons, List.reverse_append, List.reverse_cons]
      have hJ : joinSp (w2 :: ws'') ≠ [] :=
        joinSp_ne_nil (h w2 (by simp)).1
      have hhr := ih fun v hv => h v (List.mem_cons_of_mem w hv)
      cases hrev : (joinSp (w2 :: ws'')).reverse with
      | nil => exact absurd (by simpa using hrev) hJ
      | cons j J' =>
        rw [hrev] at hhr
        rw [List.cons_append, List.cons_append]
        simpa [headNonspace] using hhr

theorem noAdjWS_cons_cons (a b : Char) (t : List Char) :
    noAdjWS (a :: b :: t) = (!(isPySpace a && isPySpace b) && noAdjWS (b :: t)) := rfl

theorem noAdjWS_of_append {w R : List Char} (hw : ∀ c ∈ w, isPySpace c = false)
    (hR : noAdjWS R = true) : noAdjWS (w ++ R) = true := by
  induction w with
  | nil => exact hR
  | cons a t ih =>
    have ha : isPySpace a = false := hw a (List.mem_cons_self a t)
    have ih' := ih fun c hc => hw c (List.mem_cons_of_mem a hc)
    cases t with
    | nil =>
      cases R with
      | nil => rfl
      | cons r R' =>
        rw [List.singleton_append, noAdjWS_cons_cons, ha]
        simpa using hR
    | cons b t' =>
      have hb : isPySpace b = false := hw b (by simp)
      rw [List.cons_append, List.cons_append, noAdjWS_cons_cons, ha]
      rw [List.cons_append] at ih'
      simpa using ih'

theorem noAdjWS_joinSp {ws : List (List Char)} (h : GoodWords ws) :
    noAdjWS (joinSp ws) = true := by
  induction ws with
  | nil => rfl
  | cons w ws' ih =>
    cases ws' with
    | nil =>
      show noAdjWS w = true
      have := noAdjWS_of_append (h w (by simp)).2 (rfl : noAdjWS ([] : List Char) = true)
      simpa using this
    | cons w2 ws'' =>
      rw [joinSp_cons_cons]
      apply noAdjWS_of_append (h w (by simp)).2
      have hJ : joinSp (w2 :: ws'') ≠ [] := joinSp_ne_nil (h w2 (by simp)).1
      have hih := ih fun v hv => h v (List.mem_cons_of_mem w hv)
      have hh := headNonspace_joinSp (fun v hv => h v (List.mem_cons_of_mem w hv))
      cases hJ' : joinSp (w2 :: ws'') with
      | nil => exact absurd hJ' hJ
      | cons j J' =>
        rw [hJ'] at hih hh
        rw [noAdjWS_cons_cons]
        have hj : isPySpace j = false := by simpa [headNonspace] using hh
        simp [hj, hih]

theorem noBadWhitespace_joinSp {ws : List (List Char)} (h : GoodWords ws) :
    noBadWhitespace (joinSp ws) = true := by
  unfold noBadWhitespace
  rw [headNonspace_joinSp h, headNonspace_reverse_joinSp h, noAdjWS_joinSp h]
  rfl

theorem noBadWhitespace_collapse (l : List Char) :
    noBadWhitespace (collapse l) = true :=
  noBadWhitespace_joinSp (words_sound l)

theorem words_collapse (l : List Char) : words (collapse l) = words l :=
  words_joinSp (words_sound l)

theorem collapse_collapse (l : List Char) : collapse (collapse l) = collapse l := by
  unfold collapse
  rw [words_joinSp (words_sound l)]

theorem mem_collapse {l : List Char} {c : Char} (h : c ∈ collapse l) :
    c ∈ l ∨ c = ' ' := by
  rcases mem_joinSp h with ⟨w, hw, hcw⟩ | hsp
  · exact Or.inl ((infix_of_mem_words hw).subset hcw)
  · exact Or.inr hsp

theorem stripChars_collapse (l : List Char) : stripChars (collapse l) = collapse l :=
  stripChars_eq_self (headNonspace_joinSp (words_sound l))
    (headNonspace_reverse_joinSp (words_sound l))

theorem pyLower_collapse_pyLower (m : List Char) :
    pyLower (collapse (pyLower m)) = collapse (pyLower m) := by
  apply map_eq_self_of_fixed
  intro c hc
  rcases mem_collapse hc with hm | rfl
  · exact mem_pyLower_fixed hm
  · decide

theorem collapse_pyLower_stripChars_ne_nil {m : List Char} (h : stripChars m ≠ []) :
    collapse (pyLower (stripChars m)) ≠ [] := by
  cases hs : stripChars m with
  | nil => exact absurd hs h
  | cons c t =>
    have hc : isPySpace c = false := by
      have := headNonspace_stripChars m
      rw [hs] at this
      simpa [headNonspace] using this
    have hlc : isPySpace (lowerChar c) = false := by rw [isPySpace_lowerChar]; exact hc
    show joinSp (words (pyLower (c :: t))) ≠ []
    have : pyLower (c :: t) = lowerChar c :: pyLower t := rfl
    rw [this]
    cases hw : words (lowerChar c :: pyLower t) with
    | nil => exact absurd hw (words_ne_nil hlc)
    | cons w ws =>
      exact joinSp_ne_nil (words_sound _ w (hw ▸ List.mem_cons_self w ws)).1

/-! ### The substring test and keyword transfer across collapsing -/

theorem isPfxL_iff : ∀ {p l : List Char}, isPfxL p l = true ↔ p <+: l := by
  intro p
  induction p with
  | nil => intro l; simp [isPfxL, List.nil_prefix]
  | cons a as ih =>
    intro l
    cases l with
    | nil => simp [isPfxL, List.prefix_nil]
    | cons b bs =>
      show (a == b && isPfxL as bs) = true ↔ _
      rw [Bool.and_eq_true, beq_iff_eq, List.cons_prefix_cons, ih]

theorem isSubL_iff : ∀ {p l : List Char}, isSubL p l = true ↔ p <:+: l := by
  intro p l
  induction l with
  | nil =>
    show isPfxL p [] = true ↔ _
    rw [isPfxL_iff, List.prefix_nil, List.infix_nil]
  | cons c t ih =>
    show (isPfxL p (c :: t) || isSubL p t) = true ↔ _
    rw [Bool.or_eq_true, isPfxL_iff, ih, List.infix_cons_iff]

theorem prefix_of_append_space {pat w R : List Char}
    (hsf : ∀ c ∈ pat, isPySpace c = false) (hwsf : ∀ c ∈ w, isPySpace c = false)
    (h : pat <+: w ++ ' ' :: R) : pat <+: w := by
  induction pat generalizing w with
  | nil => exact List.nil_prefix
  | cons a pa ih =>
    cases w with
    | nil =>
      rw [List.nil_append, List.cons_prefix_cons] at h
      have ha := hsf a (List.mem_cons_self a pa)
      rw [h.1] at ha
      exact absurd ha (by decide)
    | cons b w' =>
      rw [List.cons_append, List.cons_prefix_cons] at h
      rw [List.cons_prefix_cons]
      exact ⟨h.1, ih (fun c hc => hsf c (List.mem_cons_of_mem a hc))
        (fun c hc => hwsf c (List.mem_cons_of_mem b hc)) h.2⟩

theorem infix_of_append_space {pat w R : List Char} (hne : pat ≠ [])
    (hsf : ∀ c ∈ pat, isPySpace c = false) (hwsf : ∀ c ∈ w, isPySpace c = false)
    (h : pat <:+: w ++ ' ' :: R) : pat <:+: w ∨ pat <:+: R := by
  induction w with
  | nil =>
    rw [List.nil_append, List.infix_cons_iff] at h
    rcases h with hp | hi
    · cases pat with
      | nil => exact absurd rfl hne
      | cons a pa =>
        rw [List.cons_prefix_cons] at hp
        have ha := hsf a (List.mem_cons_self a pa)
        rw [hp.1] at ha
        exact absurd ha (by decide)
    · exact Or.inr hi
  | cons b w' ih =>
    rw [List.cons_append, List.infix_cons_iff] at h
    rcases h with hp | hi
    · left
      have : pat <+: (b :: w') ++ ' ' :: R := by rw [List.cons_append]; exact hp
      exact (prefix_of_append_space hsf hwsf this).isInfix
    · rcases ih (fun c hc => hwsf c (List.mem_cons_of_mem b hc)) hi with h1 | h2
      · exact Or.inl (List.infix_cons h1)
      · exact Or.inr h2

theorem infix_joinSp {pat : List Char} {ws : List (List Char)} (hne : pat ≠ [])
    (hsf : ∀ c ∈ pat, isPySpace c = false) (hws : GoodWords ws)
    (h : pat <:+: joinSp ws) : ∃ w ∈ ws, pat <:+: w := by
  induction ws with
  | nil => exact absurd (List.infix_nil.mp h) hne
  | cons w ws' ih =>
    cases ws' with
    | nil => exact ⟨w, by simp, h⟩
    | cons w2 ws'' =>
      rw [joinSp_cons_cons] at h
      rcases infix_of_append_space hne hsf (hws w (by simp)).2 h with h1 | h2
      · exact ⟨w, by simp, h1⟩
      · obtain ⟨v, hv, hpv⟩ := ih (fun u hu => hws u (List.mem_cons_of_mem w hu)) h2
        exact ⟨v, List.mem_cons_of_mem w hv, hpv⟩

theorem sentinelKeywords_ok :
    ∀ k ∈ sentinelKeywords, k.data ≠ [] ∧ ∀ c ∈ k.data, isPySpace c = false := by
  decide

theorem containsKeyword_collapse {n : List Char} (h : containsKeyword (collapse n) = true) :
    containsKeyword n = true := by
  unfold containsKeyword at h ⊢
  rw [List.any_eq_true] at h ⊢
  obtain ⟨k, hk, hsub⟩ := h
  have hok := sentinelKeywords_ok k hk
  obtain ⟨w, hw, hpw⟩ := infix_joinSp hok.1 hok.2 (words_sound n) (isSubL_iff.mp hsub)
  exact ⟨k, hk, isSubL_iff.mpr (hpw.trans (infix_of_mem_words hw))⟩

/-! ### Trailing-space invariance of `words` -/

theorem words_all_space {S : List Char} (hS : ∀ c ∈ S, isPySpace c = true) :
    words S = [] := by
  induction S with
  | nil => exact words_nil
  | cons s S' ih =>
    rw [words_cons_space (hS s (List.mem_cons_self s S'))]
    exact ih fun c hc => hS c (List.mem_cons_of_mem s hc)

theorem words_append_spaces {S : List Char} (hS : ∀ c ∈ S, isPySpace c = true) :
    ∀ l : List Char, words (l ++ S) = words l := by
  intro l
  induction l with
  | nil => rw [List.nil_append, words_nil]; exact words_all_space hS
  | cons c t ih =>
    by_cases hc : isPySpace c = true
    · rw [List.cons_append, words_cons_space hc, ih, words_cons_space hc]
    · replace hc : isPySpace c = false := Bool.eq_false_iff.mpr hc
      cases t with
      | nil =>
        rw [List.singleton_append, words_singleton hc]
        cases S with
        | nil => exact words_singleton hc
        | cons s S' =>
          have hs : isPySpace s = true := hS s (List.mem_cons_self s S')
          rw [words_cons_cons_space hc hs, words_cons_space hs,
            words_all_space fun c hc => hS c (List.mem_cons_of_mem s hc)]
      | cons d t' =>
        by_cases hd : isPySpace d = true
        · rw [List.cons_append, List.cons_append, words_cons_cons_space hc hd,
            words_cons_cons_space hc hd]
          have ih' := ih
          rw [List.cons_append] at ih'
          rw [ih']
        · replace hd : isPySpace d = false := Bool.eq_false_iff.mpr hd
          cases hw : words (d :: t') with
          | nil => exact absurd hw (words_ne_nil hd)
          | cons w ws =>
            have hw' : words (d :: (t' ++ S)) = w :: ws := by
              rw [← List.cons_append, ih]
              exact hw
            rw [List.cons_append, List.cons_append,
              words_cons_cons_nonspace hc hd hw',
              words_cons_cons_nonspace hc hd hw]

theorem words_dropWhile_sp (l : List Char) :
    words (l.dropWhile isPySpace) = words l := by
  induction l with
  | nil => rfl
  | cons c t ih =>
    by_cases hc : isPySpace c = true
    · rw [List.dropWhile_cons, if_pos hc, ih, words_cons_space hc]
    · rw [List.dropWhile_cons, if_neg (by rw [Bool.eq_false_iff.mpr hc]; exact Bool.false_ne_true)]

theorem words_stripChars (l : List Char) : words (stripChars l) = words l := by
  unfold stripChars
  have hI := List.takeWhile_append_dropWhile isPySpace ((l.dropWhile isPySpace).reverse)
  have hIsplit : l.dropWhile isPySpace =
      ((l.dropWhile isPySpace).reverse.dropWhile isPySpace).reverse ++
        ((l.dropWhile isPySpace).reverse.takeWhile isPySpace).reverse := by
    conv_lhs => rw [← List.reverse_reverse (l.dropWhile isPySpace), ← hI]
    rw [List.reverse_append]
  have hT : ∀ c ∈ ((l.dropWhile isPySpace).reverse.takeWhile isPySpace).reverse,
      isPySpace c = true := by
    intro c hc
    exact List.mem_takeWhile_imp (List.mem_reverse.mp hc)
  calc words (((l.dropWhile isPySpace).reverse.dropWhile isPySpace).reverse)
      = words (((l.dropWhile isPySpace).reverse.dropWhile isPySpace).reverse ++
          ((l.dropWhile isPySpace).reverse.takeWhile isPySpace).reverse) :=
        (words_append_spaces hT _).symm
    _ = words (l.dropWhile isPySpace) := by rw [← hIsplit]
    _ = words l := words_dropWhile_sp l

theorem dropWhile_pyLower (l : List Char) :
    (pyLower l).dropWhile isPySpace = pyLower (l.dropWhile isPySpace) := by
  induction l with
  | nil => rfl
  | cons c t ih =>
    show (lowerChar c :: pyLower t).dropWhile isPySpace = _
    rw [List.dropWhile_cons, List.dropWhile_cons, isPySpace_lowerChar]
    by_cases hc : isPySpace c = true
    · rw [if_pos hc, if_pos hc, ih]
    · rw [if_neg hc, if_neg hc]
      rfl

theorem pyLower_stripChars (l : List Char) :
    pyLower (stripChars l) = stripChars (pyLower l) := by
  show pyLower (((l.dropWhile isPySpace).reverse.dropWhile isPySpace).reverse) =
    (((pyLower l).dropWhile isPySpace).reverse.dropWhile isPySpace).reverse
  rw [dropWhile_pyLower l,
    show (pyLower (l.dropWhile isPySpace)).reverse =
        pyLower ((l.dropWhile isPySpace).reverse) from
      (List.map_reverse lowerChar _).symm,
    dropWhile_pyLower,
    show (pyLower ((l.dropWhile isPySpace).reverse.dropWhile isPySpace)).reverse =
        pyLower (((l.dropWhile isPySpace).reverse.dropWhile isPySpace).reverse) from
      (List.map_reverse lowerChar _).symm]

theorem words_pyLower_stripChars (l : List Char) :
    words (pyLower (stripChars l)) = words (pyLower l) := by
  rw [pyLower_stripChars, words_stripChars]

/-! ### Behaviour of `norm_company` and `norm_position` -/

theorem norm_company_of_keyword {s : String} (h1 : s ≠ "")
    (h2 : containsKeyword (pyLower (stripChars s.data)) = true) :
    norm_company s = OTHER_NAME := by
  unfold norm_company
  rw [if_neg h1, if_pos h2]

theorem norm_company_of_not_keyword {s : String} (h1 : s ≠ "")
    (h2 : containsKeyword (pyLower (stripChars s.data)) = false) :
    norm_company s = ⟨collapse (pyLower (stripChars s.data))⟩ := by
  unfold norm_company
  rw [if_neg h1, if_neg (by rw [h2]; exact Bool.false_ne_true)]

theorem collapse_pyLower_ne_OTHER (m : List Char) :
    (⟨collapse (pyLower m)⟩ : String) ≠ OTHER_NAME := by
  intro h
  have hd : collapse (pyLower m) = OTHER_NAME.data := congrArg String.data h
  have hO : 'O' ∈ collapse (pyLower m) := by rw [hd]; decide
  rcases mem_collapse hO with hm | hsp
  · exact absurd (mem_pyLower_fixed hm) (by decide)
  · exact absurd hsp (by decide)

theorem norm_company_OTHER : norm_company OTHER_NAME = OTHER_NAME := by decide

theorem data_mk (l : List Char) : (⟨l⟩ : String).data = l := rfl

theorem norm_position_eq (p : String) :
    norm_position p = ⟨collapse (pyLower (stripChars p.data))⟩ := rfl

theorem norm_second_application (L : List Char) (hL : pyLower L = L) :
    norm_position ⟨collapse L⟩ = ⟨collapse L⟩ := by
  rw [norm_position_eq, data_mk, stripChars_collapse]
  have h1 : pyLower (collapse L) = collapse L := by
    conv_lhs => rw [← hL]
    rw [pyLower_collapse_pyLower, hL]
  rw [h1, collapse_collapse]

/-! ### Claim C10 -/

/-- C10: for every input string `p`, `normalizePosition` is idempotent
(`norm_position (norm_position p) = norm_position p`), and its output never
has leading, trailing, or doubled whitespace. -/
theorem C10_normalizePosition_idempotent_and_clean (p : String) :
    norm_position (norm_position p) = norm_position p ∧
    noBadWhitespace (norm_position p).data = true := by
  constructor
  · rw [norm_position_eq p]
    have hL : pyLower (pyLower (stripChars p.data)) = pyLower (stripChars p.data) :=
      map_eq_self_of_fixed fun c hc => mem_pyLower_fixed hc
    exact norm_second_application _ hL
  · rw [norm_position_eq p, data_mk]
    exact noBadWhitespace_collapse _

/-! ### Claim C3 -/

/-- C3 counterexample: the claim says a whitespace-only input (whose
trimmed/collapsed form is empty) yields the sentinel token, but the code's
emptiness test `if not name` fires only on the empty string: for `" "` the
function returns `""`, not the sentinel. -/
theorem C3_counterexample :
    norm_company " " = "" ∧ ("" : String) ≠ OTHER_NAME ∧ stripChars " ".data = [] := by
  refine ⟨by decide, by decide, by decide⟩

/-- C3 (amended): `normalizeCompany` returns the sentinel token exactly when
the input is the empty string or its trimmed lowercased form contains one of
the sentinel substrings; a nonempty whitespace-only input yields the empty
string (not the sentinel); and every non-sentinel result is the lowercased
input with whitespace runs collapsed: it has the same whitespace-separated
words as the lowercased input, is unchanged by lowercasing, and carries no
leading, trailing, or doubled whitespace. -/
theorem C3_normalizeCompany_characterization (s : String) :
    (norm_company s = OTHER_NAME ↔
      s = "" ∨ containsKeyword (pyLower (stripChars s.data)) = true) ∧
    (s ≠ "" → stripChars s.data = [] → norm_company s = "") ∧
    (norm_company s ≠ OTHER_NAME →
      words (norm_company s).data = words (pyLower s.data) ∧
      pyLower (norm_company s).data = (norm_company s).data ∧
      noBadWhitespace (norm_company s).data = true) := by
  have hiff : norm_company s = OTHER_NAME ↔
      s = "" ∨ containsKeyword (pyLower (stripChars s.data)) = true := by
    constructor
    · intro h
      by_cases h1 : s = ""
      · exact Or.inl h1
      · by_cases h2 : containsKeyword (pyLower (stripChars s.data)) = true
        · exact Or.inr h2
        · replace h2 := Bool.eq_false_iff.mpr h2
          rw [norm_company_of_not_keyword h1 h2] at h
          exact absurd h (collapse_pyLower_ne_OTHER _)
    · rintro (rfl | h2)
      · rfl
      · by_cases h1 : s = ""
        · rw [h1]; rfl
        · exact norm_company_of_keyword h1 h2
  refine ⟨hiff, ?_, ?_⟩
  · intro h1 h2
    have hk : containsKeyword (pyLower (stripChars s.data)) = false := by
      rw [h2]; decide
    rw [norm_company_of_not_keyword h1 hk, h2]
    rfl
  · intro hne
    have h' := (not_iff_not.mpr hiff).mp hne
    push_neg at h'
    obtain ⟨h1, h2⟩ := h'
    replace h2 : containsKeyword (pyLower (stripChars s.data)) = false :=
      Bool.eq_false_iff.mpr h2
    rw [norm_company_of_not_keyword h1 h2, data_mk]
    refine ⟨?_, ?_, noBadWhitespace_collapse _⟩
    · rw [words_collapse, words_pyLower_stripChars]
    · exact pyLower_collapse_pyLower _

/-- C3 witness: the theorem applied at the concrete input `" Acme  Corp "`. -/
theorem C3_witness :
    words (norm_company " Acme  Corp ").data = words (pyLower " Acme  Corp ".data) ∧
    pyLower (norm_company " Acme  Corp ").data = (norm_company " Acme  Corp ").data ∧
    noBadWhitespace (norm_company " Acme  Corp ").data = true :=
  (C3_normalizeCompany_characterization " Acme  Corp ").2.2 (by decide)

/-! ### Claim C4 -/

/-- C4 counterexample: `normalizeCompany` is not idempotent: on the
whitespace-only input `" "` the first application yields `""` and the second
the sentinel token. -/
theorem C4_counterexample :
    norm_company (norm_company " ") ≠ norm_company " " ∧
    norm_company " " = "" ∧ norm_company (norm_company " ") = OTHER_NAME := by
  refine ⟨by decide, by decide, by decide⟩

/-- C4 (amended): `normalizeCompany` is idempotent on every input except the
nonempty whitespace-only strings (where the first application yields `""` and
the second the sentinel), and its output never has leading, trailing, or
doubled whitespace. -/
theorem C4_normalizeCompany_idempotent_amended :
    (∀ s : String, s = "" ∨ stripChars s.data ≠ [] →
      norm_company (norm_company s) = norm_company s) ∧
    (∀ s : String, noBadWhitespace (norm_company s).data = true) := by
  constructor
  · rintro s (rfl | hstr)
    · decide
    · have h1 : s ≠ "" := by
        intro h
        rw [h] at hstr
        exact hstr (by decide)
      by_cases h2 : containsKeyword (pyLower (stripChars s.data)) = true
      · rw [norm_company_of_keyword h1 h2, norm_company_OTHER]
      · replace h2 : containsKeyword (pyLower (stripChars s.data)) = false :=
          Bool.eq_false_iff.mpr h2
        rw [norm_company_of_not_keyword h1 h2]
        have hne : collapse (pyLower (stripChars s.data)) ≠ [] :=
          collapse_pyLower_stripChars_ne_nil hstr
        have ho : (⟨collapse (pyLower (stripChars s.data))⟩ : String) ≠ "" := by
          intro h
          exact hne (congrArg String.data h)
        have hstr2 : stripChars (⟨collapse (pyLower (stripChars s.data))⟩ : String).data =
            collapse (pyLower (stripChars s.data)) := by
          rw [data_mk]
          exact stripChars_collapse _
        have hlow : pyLower (collapse (pyLower (stripChars s.data))) =
            collapse (pyLower (stripChars s.data)) :=
          pyLower_collapse_pyLower _
        have hk2 : containsKeyword
            (pyLower (stripChars (⟨collapse (pyLower (stripChars s.data))⟩ : String).data)) =
            false := by
          rw [hstr2, hlow]
          cases hb : containsKeyword (collapse (pyLower (stripChars s.data))) with
          | false => rfl
          | true =>
            have hc := containsKeyword_collapse hb
            rw [hc] at h2
            exact absurd h2 (by simp)
        rw [norm_company_of_not_keyword ho hk2, hstr2, hlow, collapse_collapse]
  · intro s
    by_cases h1 : s = ""
    · rw [h1]
      decide
    · by_cases h2 : containsKeyword (pyLower (stripChars s.data)) = true
      · rw [norm_company_of_keyword h1 h2]
        decide
      · replace h2 : containsKeyword (pyLower (stripChars s.data)) = false :=
          Bool.eq_false_iff.mpr h2
        rw [norm_company_of_not_keyword h1 h2, data_mk]
        exact noBadWhitespace_collapse _

/-- C4 witness: the amended idempotence applied at the concrete input
`" a  b "`. -/
theorem C4_witness :
    norm_company (norm_company " a  b ") = norm_company " a  b " :=
  C4_normalizeCompany_idempotent_amended.1 " a  b " (by decide)

/-! ### Claim C5 -/

theorem person_exists_iff (db : DB) (f l : String) (cid : Nat) (u : String) :
    person_exists db f l cid u = true ↔
      ((u ≠ "" ∧ ∃ p ∈ db.people, p.url = u) ∨
        ∃ p ∈ db.people, p.first_name = f ∧ p.last_name = l ∧ p.company_id = cid) := by
  unfold person_exists
  simp only [Bool.or_eq_true, Bool.and_eq_true, List.any_eq_true, decide_eq_true_eq,
    and_assoc]

/-- C5: `personExists` returns true iff some stored person's url equals the
given url (only when the given url is non-empty; no company condition on this
disjunct), or some stored person matches `(first, last, companyId)` exactly. -/
theorem C5_personExists_iff (db : DB) (f l : String) (cid : Nat) (u : String) :
    person_exists db f l cid u = true ↔
      ((u ≠ "" ∧ ∃ p ∈ db.people, p.url = u) ∨
        ∃ p ∈ db.people, p.first_name = f ∧ p.last_name = l ∧ p.company_id = cid) :=
  person_exists_iff db f l cid u

/-! ### Claim C8 -/

theorem foldl_visited_people (b : Bool) :
    ∀ (ids : List Nat) (db : DB),
    (ids.foldl (fun db i =>
      { db with people := db.people.map fun p =>
          if p.id = i then { p with visited := b } else p }) db).people =
      db.people.map fun p => if p.id ∈ ids then { p with visited := b } else p := by
  intro ids
  induction ids with
  | nil =>
    intro db
    rw [List.foldl_nil]
    symm
    calc db.people.map (fun p => if p.id ∈ ([] : List Nat) then { p with visited := b } else p)
        = db.people.map id := by
          apply List.map_congr_left
          intro p _
          simp
      _ = db.people := List.map_id db.people
  | cons i ids' ih =>
    intro db
    rw [List.foldl_cons, ih, List.map_map]
    apply List.map_congr_left
    intro p _
    by_cases hpi : p.id = i
    · simp [Function.comp, hpi, List.mem_cons]
    · simp [Function.comp, hpi, List.mem_cons]

theorem mark_visited_people (db : DB) (ids : List Nat) :
    (mark_visited db ids).people =
      db.people.map fun p => if p.id ∈ ids then { p with visited := true } else p :=
  foldl_visited_people true ids db

theorem unmark_visited_people (db : DB) (ids : List Nat) :
    (unmark_visited db ids).people =
      db.people.map fun p => if p.id ∈ ids then { p with visited := false } else p :=
  foldl_visited_people false ids db

/-- C8 counterexample: on a store whose only person is already visited,
`markVisited [0]` then `unmarkVisited [0]` drops the visited count from 1 to
0, so `visitedStats` is not restored. -/
theorem C8_counterexample :
    visited_stats (unmark_visited (mark_visited
      (⟨[], [], [⟨0, "Ann", "Lee", "", "", 0, "", true⟩], [], [], 0, 0, 1⟩ : DB) [0]) [0]) =
      (0, 1) ∧
    visited_stats (⟨[], [], [⟨0, "Ann", "Lee", "", "", 0, "", true⟩], [], [], 0, 0, 1⟩ : DB) =
      (1, 1) :=
  ⟨by decide, by decide⟩

/-- C8 (amended): `markVisited` then `unmarkVisited` on the same id set always
preserves the total count of `visitedStats`, and preserves the visited count
provided no person whose id is in the set was visited before the calls
(`unmarkVisited` clears the flag unconditionally rather than restoring it). -/
theorem C8_mark_then_unmark_amended (db : DB) (ids : List Nat) :
    (visited_stats (unmark_visited (mark_visited db ids) ids)).2 =
      (visited_stats db).2 ∧
    ((∀ p ∈ db.people, p.id ∈ ids → p.visited = false) →
      visited_stats (unmark_visited (mark_visited db ids) ids) = visited_stats db) := by
  have hpeople : (unmark_visited (mark_visited db ids) ids).people =
      db.people.map fun p => if p.id ∈ ids then { p with visited := false } else p := by
    rw [unmark_visited_people, mark_visited_people, List.map_map]
    apply List.map_congr_left
    intro p _
    by_cases hpi : p.id ∈ ids
    · simp [Function.comp, hpi]
    · simp [Function.comp, hpi]
  constructor
  · show (unmark_visited (mark_visited db ids) ids).people.length = db.people.length
    rw [hpeople, List.length_map]
  · intro hvis
    unfold visited_stats
    rw [hpeople, List.length_map, List.countP_map]
    have hcount : db.people.countP
        ((fun p : Person => p.visited) ∘
          fun p => if p.id ∈ ids then { p with visited := false } else p) =
        db.people.countP fun p => p.visited := by
      apply List.countP_congr
      intro p hp
      by_cases hpi : p.id ∈ ids
      · simp only [Function.comp, hpi, if_pos]
        rw [hvis p hp hpi]
      · simp [Function.comp, hpi]
    rw [hcount]

/-- C8 witness: the amended statement applied to a concrete store whose single
person is unvisited. -/
theorem C8_witness :
    visited_stats (unmark_visited (mark_visited
      (⟨[], [], [⟨0, "Bea", "Orr", "", "", 0, "", false⟩], [], [], 0, 0, 1⟩ : DB) [0]) [0]) =
      visited_stats (⟨[], [], [⟨0, "Bea", "Orr", "", "", 0, "", false⟩], [], [], 0, 0, 1⟩ : DB) :=
  (C8_mark_then_unmark_amended
    (⟨[], [], [⟨0, "Bea", "Orr", "", "", 0, "", false⟩], [], [], 0, 0, 1⟩ : DB) [0]).2
    (by decide)

/-! ### Claims C6 and C1: position splitting and linking -/

theorem get_or_create_position_found {db : DB} {p : String} {i : Nat}
    (h : lookupPosition db (norm_position p) = some i) :
    get_or_create_position db p = (i, db) := by
  simp only [get_or_create_position, h]

theorem get_or_create_position_new {db : DB} {p : String}
    (h : lookupPosition db (norm_position p) = none) :
    get_or_create_position db p =
      (db.nextPositionId,
        { db with
          positions := db.positions ++ [⟨db.nextPositionId, p, norm_position p⟩]
          nextPositionId := db.nextPositionId + 1 }) := by
  simp only [get_or_create_position, h]

theorem get_or_create_company_found {db : DB} {name : String} {i : Nat}
    (h : lookupCompany db (norm_company name) = some i) :
    get_or_create_company db name = (i, db) := by
  simp only [get_or_create_company, h]

theorem get_or_create_company_new {db : DB} {name : String}
    (h : lookupCompany db (norm_company name) = none) :
    get_or_create_company db name =
      (db.nextCompanyId,
        { db with
          companies := db.companies ++
            [⟨db.nextCompanyId, if name = "" then OTHER_NAME else name, norm_company name⟩]
          nextCompanyId := db.nextCompanyId + 1 }) := by
  simp only [get_or_create_company, h]

theorem linkOne_blank {pid : Nat} {db : DB} {p : String} (hb : stripChars p.data = []) :
    linkOne pid db p = db := by
  unfold linkOne
  rw [if_pos hb]

theorem linkOne_found_mem {pid : Nat} {db : DB} {p : String} {i : Nat}
    (hb : stripChars p.data ≠ []) (hl : lookupPosition db (norm_position p) = some i)
    (hm : (pid, i) ∈ db.person_positions) : linkOne pid db p = db := by
  unfold linkOne
  rw [if_neg hb]
  simp only [get_or_create_position_found hl]
  rw [if_pos hm]

theorem linkOne_found_new {pid : Nat} {db : DB} {p : String} {i : Nat}
    (hb : stripChars p.data ≠ []) (hl : lookupPosition db (norm_position p) = some i)
    (hm : (pid, i) ∉ db.person_positions) :
    linkOne pid db p = { db with person_positions := db.person_positions ++ [(pid, i)] } := by
  unfold linkOne
  rw [if_neg hb]
  simp only [get_or_create_position_found hl]
  rw [if_neg hm]

theorem linkOne_new_mem {pid : Nat} {db : DB} {p : String}
    (hb : stripChars p.data ≠ []) (hl : lookupPosition db (norm_position p) = none)
    (hm : (pid, db.nextPositionId) ∈ db.person_positions) :
    linkOne pid db p =
      { db with
        positions := db.positions ++ [⟨db.nextPositionId, p, norm_position p⟩]
        nextPositionId := db.nextPositionId + 1 } := by
  unfold linkOne
  rw [if_neg hb]
  simp only [get_or_create_position_new hl]
  rw [if_pos hm]

theorem linkOne_new_new {pid : Nat} {db : DB} {p : String}
    (hb : stripChars p.data ≠ []) (hl : lookupPosition db (norm_position p) = none)
    (hm : (pid, db.nextPositionId) ∉ db.person_positions) :
    linkOne pid db p =
      { db with
        positions := db.positions ++ [⟨db.nextPositionId, p, norm_position p⟩]
        nextPositionId := db.nextPositionId + 1
        person_positions := db.person_positions ++ [(pid, db.nextPositionId)] } := by
  unfold linkOne
  rw [if_neg hb]
  simp only [get_or_create_position_new hl]
  rw [if_neg hm]

theorem norm_position_ne_empty {p : String} (h : stripChars p.data ≠ []) :
    norm_position p ≠ "" := by
  rw [norm_position_eq]
  intro he
  exact collapse_pyLower_stripChars_ne_nil h (congrArg String.data he)

theorem linkOne_positions (pid : Nat) (db : DB) (p : String) :
    ∀ q ∈ (linkOne pid db p).positions,
      q ∈ db.positions ∨ (q.name_norm ≠ "" ∧ stripChars q.name_original.data ≠ []) := by
  intro q hq
  by_cases hb : stripChars p.data = []
  · rw [linkOne_blank hb] at hq
    exact Or.inl hq
  · cases hl : lookupPosition db (norm_position p) with
    | some i =>
      by_cases hm : (pid, i) ∈ db.person_positions
      · rw [linkOne_found_mem hb hl hm] at hq
        exact Or.inl hq
      · rw [linkOne_found_new hb hl hm] at hq
        exact Or.inl hq
    | none =>
      have hnew : q ∈ db.positions ++ [(⟨db.nextPositionId, p, norm_position p⟩ : Position)] →
          q ∈ db.positions ∨ (q.name_norm ≠ "" ∧ stripChars q.name_original.data ≠ []) := by
        intro hq'
        rcases List.mem_append.mp hq' with h1 | h2
        · exact Or.inl h1
        · rcases List.mem_singleton.mp h2 with rfl
          exact Or.inr ⟨norm_position_ne_empty hb, hb⟩
      by_cases hm : (pid, db.nextPositionId) ∈ db.person_positions
      · rw [linkOne_new_mem hb hl hm] at hq
        exact hnew hq
      · rw [linkOne_new_new hb hl hm] at hq
        exact hnew hq

theorem link_positions_no_blank :
    ∀ (parts : List String) (db : DB) (pid : Nat),
    ∀ q ∈ (link_positions db pid parts).positions,
      q ∈ db.positions ∨ (q.name_norm ≠ "" ∧ stripChars q.name_original.data ≠ []) := by
  intro parts
  induction parts with
  | nil => intro db pid q hq; exact Or.inl hq
  | cons p parts' ih =>
    intro db pid q hq
    have hstep : link_positions db pid (p :: parts') =
        link_positions (linkOne pid db p) pid parts' := rfl
    rw [hstep] at hq
    rcases ih (linkOne pid db p) pid q hq with h1 | h2
    · exact linkOne_positions pid db p q h1
    · exact Or.inr h2

/-- C6: a person imported with Position `"Engineer, Manager"` is linked to
exactly the two positions normalized `"engineer"` and `"manager"`; one with
`"Engineer"` to exactly the one position `"engineer"`; one with `",,"` to
zero positions; and `linkPositions` never creates a blank-named position row. -/
theorem C6_position_link_counts :
    ((import_csv
      [["First Name", "Last Name", "URL", "Email Address", "Company", "Position",
        "Connected On"],
       ["Alice", "Smith", "", "", "Acme", "Engineer, Manager", "x"],
       ["Bob", "Jones", "", "", "Acme", "Engineer", "x"],
       ["Cara", "Diaz", "", "", "Acme", ",,", "x"]] emptyDB).map
      (fun r => (r.2.positions.map Position.name_norm,
        r.2.person_positions.filter (fun pr => pr.1 = 0),
        r.2.person_positions.filter (fun pr => pr.1 = 1),
        r.2.person_positions.filter (fun pr => pr.1 = 2))) =
      some (["engineer", "manager"], [(0, 0), (0, 1)], [(1, 0)], [])) ∧
    ∀ (db : DB) (pid : Nat) (parts : List String),
      ∀ q ∈ (link_positions db pid parts).positions,
        q ∈ db.positions ∨ (q.name_norm ≠ "" ∧ stripChars q.name_original.data ≠ "".data) :=
  ⟨by rfl, fun db pid parts q hq => link_positions_no_blank parts db pid q hq⟩

/-- C1 counterexample: importing a data row whose Position is `"Manager/Lead"`
links the created person to a single position whose normalized name is
`"manager/lead"` — not to the two positions `"manager"` and `"lead"` the claim
requires: the slash only triggers the splitting branch, which then splits on
commas alone. -/
theorem C1_counterexample :
    (import_csv
      [["First Name", "Last Name", "URL", "Email Address", "Company", "Position",
        "Connected On"],
       ["Bob", "Jones", "", "", "Acme", "Manager/Lead", "x"]] emptyDB).map
      (fun r => (r.2.people.length, r.2.person_positions,
        r.2.positions.map Position.name_norm)) =
      some (1, [(0, 0)], ["manager/lead"]) := by
  rfl

/-- C1 (amended): a Position of `"Manager/Lead"` survives the splitter as the
single part `"Manager/Lead"`, and linking it attaches the person to exactly
one position, whose normalized name is `"manager/lead"`. -/
theorem C1_slash_position_single_link :
    splitPositions "Manager/Lead" = ["Manager/Lead"] ∧
    norm_position "Manager/Lead" = "manager/lead" ∧
    ∀ (db : DB) (pid : Nat), ∃ pid2,
      (∃ q ∈ (link_positions db pid (splitPositions "Manager/Lead")).positions,
        q.id = pid2 ∧ q.name_norm = "manager/lead") ∧
      ((link_positions db pid (splitPositions "Manager/Lead")).person_positions =
          db.person_positions ∨
        (link_positions db pid (splitPositions "Manager/Lead")).person_positions =
          db.person_positions ++ [(pid, pid2)]) := by
  refine ⟨by rfl, by rfl, ?_⟩
  intro db pid
  have hlink : link_positions db pid (splitPositions "Manager/Lead") =
      linkOne pid db "Manager/Lead" := rfl
  rw [hlink]
  have hnb : stripChars "Manager/Lead".data ≠ [] := by decide
  have hnorm : norm_position "Manager/Lead" = "manager/lead" := rfl
  cases hl : lookupPosition db (norm_position "Manager/Lead") with
  | some i =>
    have hqfacts : ∃ q ∈ db.positions, q.id = i ∧ q.name_norm = "manager/lead" := by
      unfold lookupPosition at hl
      cases hf : db.positions.find? (fun q => q.name_norm = norm_position "Manager/Lead") with
      | none => rw [hf] at hl; exact absurd hl (by simp)
      | some q =>
        rw [hf] at hl
        refine ⟨q, List.mem_of_find?_eq_some hf, by simpa using hl, ?_⟩
        have h1 := List.find?_some hf
        have hqn : q.name_norm = norm_position "Manager/Lead" := by simpa using h1
        rw [hqn]
        exact hnorm
    obtain ⟨q, hqmem, hqi, hqn⟩ := hqfacts
    by_cases hm : (pid, i) ∈ db.person_positions
    · rw [linkOne_found_mem hnb hl hm]
      exact ⟨i, ⟨q, hqmem, hqi, hqn⟩, Or.inl rfl⟩
    · rw [linkOne_found_new hnb hl hm]
      exact ⟨i, ⟨q, hqmem, hqi, hqn⟩, Or.inr rfl⟩
  | none =>
    by_cases hm : (pid, db.nextPositionId) ∈ db.person_positions
    · rw [linkOne_new_mem hnb hl hm]
      exact ⟨db.nextPositionId,
        ⟨⟨db.nextPositionId, "Manager/Lead", norm_position "Manager/Lead"⟩,
          by simp, rfl, hnorm⟩, Or.inl rfl⟩
    · rw [linkOne_new_new hnb hl hm]
      exact ⟨db.nextPositionId,
        ⟨⟨db.nextPositionId, "Manager/Lead", norm_position "Manager/Lead"⟩,
          by simp, rfl, hnorm⟩, Or.inr rfl⟩

/-! ### Claim C7: the company listing -/

theorem lexLE_nil (b : List Char) : lexLE [] b = true := rfl

theorem lexLE_cons_nil (x : Char) (xs : List Char) : lexLE (x :: xs) [] = false := rfl

theorem lexLE_cons_cons (x y : Char) (xs ys : List Char) :
    lexLE (x :: xs) (y :: ys) =
      if x.toNat < y.toNat then true
      else if y.toNat < x.toNat then false
      else lexLE xs ys := rfl

theorem lexLE_total : ∀ a b : List Char, lexLE a b = true ∨ lexLE b a = true := by
  intro a
  induction a with
  | nil => intro b; exact Or.inl rfl
  | cons x xs ih =>
    intro b
    cases b with
    | nil => exact Or.inr rfl
    | cons y ys =>
      rw [lexLE_cons_cons, lexLE_cons_cons]
      rcases Nat.lt_trichotomy x.toNat y.toNat with h | h | h
      · left; rw [if_pos h]
      · have h1 : ¬ x.toNat < y.toNat := by omega
        have h2 : ¬ y.toNat < x.toNat := by omega
        rw [if_neg h1, if_neg h2, if_neg h2, if_neg h1]
        exact ih ys
      · right; rw [if_pos h]

theorem lexLE_trans :
    ∀ a b c : List Char, lexLE a b = true → lexLE b c = true → lexLE a c = true := by
  intro a
  induction a with
  | nil => intro b c _ _; rfl
  | cons x xs ih =>
    intro b c hab hbc
    cases b with
    | nil => rw [lexLE_cons_nil] at hab; exact absurd hab (by simp)
    | cons y ys =>
      cases c with
      | nil => rw [lexLE_cons_nil] at hbc; exact absurd hbc (by simp)
      | cons z zs =>
        rw [lexLE_cons_cons] at hab hbc ⊢
        by_cases h1 : x.toNat < y.toNat
        · by_cases h2 : y.toNat < z.toNat
          · rw [if_pos (by omega : x.toNat < z.toNat)]
          · by_cases h3 : z.toNat < y.toNat
            · rw [if_neg h2, if_pos h3] at hbc; exact absurd hbc (by simp)
            · rw [if_pos (by omega : x.toNat < z.toNat)]
        · by_cases h4 : y.toNat < x.toNat
          · rw [if_neg h1, if_pos h4] at hab; exact absurd hab (by simp)
          · rw [if_neg h1, if_neg h4] at hab
            by_cases h2 : y.toNat < z.toNat
            · rw [if_pos (by omega : x.toNat < z.toNat)]
            · by_cases h3 : z.toNat < y.toNat
              · rw [if_neg h2, if_pos h3] at hbc; exact absurd hbc (by simp)
              · rw [if_neg h2, if_neg h3] at hbc
                rw [if_neg (by omega : ¬ x.toNat < z.toNat),
                  if_neg (by omega : ¬ z.toNat < x.toNat)]
                exact ih ys zs hab hbc

theorem find?_map_upsert {k v : String} :
    ∀ l : List (String × String), l.any (fun kv => kv.1 = k) = true →
    (l.map fun kv => if kv.1 = k then (k, v) else kv).find?
      (fun kv => kv.1 = k) = some (k, v) := by
  intro l
  induction l with
  | nil => intro h; simp at h
  | cons kv l' ih =>
    intro h
    by_cases hk : kv.1 = k
    · simp [hk]
    · have h' : l'.any (fun kv => kv.1 = k) = true := by
        rcases List.any_eq_true.mp h with ⟨x, hx, hpx⟩
        rcases List.mem_cons.mp hx with rfl | hx'
        · exact absurd (of_decide_eq_true hpx) hk
        · exact List.any_eq_true.mpr ⟨x, hx', hpx⟩
      simp only [List.map_cons, if_neg hk, List.find?_cons, decide_eq_false hk]
      exact ih h'

theorem get_setting_set_setting (db : DB) (k v : String) :
    get_setting (set_setting db k v) k = some v := by
  unfold set_setting
  by_cases hany : db.settings.any (fun kv => kv.1 = k) = true
  · rw [if_pos hany]
    unfold get_setting
    rw [find?_map_upsert db.settings hany]
    rfl
  · rw [if_neg hany]
    unfold get_setting
    rw [List.find?_append]
    have hnone : db.settings.find? (fun kv => kv.1 = k) = none := by
      rw [List.find?_eq_none]
      intro kv hkv
      simp only [decide_eq_true_eq]
      intro he
      exact hany (List.any_eq_true.mpr ⟨kv, hkv, by simp [he]⟩)
    rw [hnone]
    simp

/-- C7 counterexample: with the `employee_threshold` setting present as `"0"`,
the claim demands every company whose person count is `>= 0` — in particular a
company with no people — but the query's inner join drops person-less
companies, returning the empty list. -/
theorem C7_counterexample :
    companiesQuery
      (⟨[⟨0, "Acme", "acme"⟩], [], [], [], [("employee_threshold", "0")], 1, 0, 0⟩ : DB) =
      some [] ∧
    employee_threshold
      (⟨[⟨0, "Acme", "acme"⟩], [], [], [], [("employee_threshold", "0")], 1, 0, 0⟩ : DB) =
      some 0 ∧
    personCount
      (⟨[⟨0, "Acme", "acme"⟩], [], [], [], [("employee_threshold", "0")], 1, 0, 0⟩ : DB) 0 =
      0 := by
  refine ⟨by rfl, by rfl, by rfl⟩

/-- C7 (amended): `companiesAboveThreshold` returns exactly the companies that
have at least one person and whose person count is at least the threshold,
each paired with its count, sorted by ASCII-case-folded company name; the
threshold is 3 when the setting is absent, and otherwise the integer value of
the non-empty stored string; store construction pre-seeds the setting to
`"10"` when it is absent. -/
theorem C7_companiesAboveThreshold_amended :
    (∀ (db : DB) (t : Int) (l : List (Company × Nat)),
      employee_threshold db = some t → companiesQuery db = some l →
      ((∀ c n, ((c, n) ∈ l ↔
          c ∈ db.companies ∧ n = personCount db c.id ∧ 1 ≤ n ∧ t ≤ (n : Int))) ∧
        List.Sorted (fun a b => lexLE (ciKey a.1) (ciKey b.1) = true) l)) ∧
    (∀ db : DB, get_setting db "employee_threshold" = none →
      employee_threshold db = some 3) ∧
    (∀ (db : DB) (v : String), get_setting db "employee_threshold" = some v → v ≠ "" →
      employee_threshold db = pyInt v) ∧
    (∀ db : DB, get_setting db "employee_threshold" = none →
      get_setting (initThresholdSetting db) "employee_threshold" = some "10") := by
  refine ⟨?_, ?_, ?_, ?_⟩
  · intro db t l ht hl
    unfold companiesQuery at hl
    rw [ht] at hl
    simp only [Option.map_some'] at hl
    injection hl with hl
    subst hl
    constructor
    · intro c n
      rw [(List.perm_insertionSort _ _).mem_iff, List.mem_filterMap]
      constructor
      · rintro ⟨a, ha, hga⟩
        by_cases hcond : 1 ≤ personCount db a.id ∧ t ≤ (personCount db a.id : Int)
        · rw [if_pos hcond] at hga
          injection hga with hpair
          injection hpair with h1 h2
          subst h1
          subst h2
          exact ⟨ha, rfl, hcond⟩
        · rw [if_neg hcond] at hga
          exact absurd hga (by simp)
      · rintro ⟨hc, rfl, h1, h2⟩
        exact ⟨c, hc, by rw [if_pos ⟨h1, h2⟩]⟩
    · haveI hT : IsTotal (Company × Nat) (fun a b => lexLE (ciKey a.1) (ciKey b.1) = true) :=
        ⟨fun a b => lexLE_total _ _⟩
      haveI hR : IsTrans (Company × Nat) (fun a b => lexLE (ciKey a.1) (ciKey b.1) = true) :=
        ⟨fun a b c => lexLE_trans _ _ _⟩
      exact List.sorted_insertionSort _ _
  · intro db h
    unfold employee_threshold
    rw [h]
  · intro db v h hv
    unfold employee_threshold
    rw [h]
    simp only [if_neg hv]
  · intro db h
    unfold initThresholdSetting
    rw [if_pos h]
    exact get_setting_set_setting db _ _

/-- C7 witness: the amended query characterization applied to a concrete
store with one company of three people and threshold setting `"2"`. -/
theorem C7_witness :
    (∀ (c : Company) (n : Nat),
      ((c, n) ∈ [((⟨0, "Acme", "acme"⟩ : Company), 3)] ↔
        c ∈ (⟨[⟨0, "Acme", "acme"⟩], [],
          [⟨0, "A", "A", "", "", 0, "", false⟩, ⟨1, "B", "B", "", "", 0, "", false⟩,
            ⟨2, "C", "C", "", "", 0, "", false⟩],
          [], [("employee_threshold", "2")], 1, 0, 3⟩ : DB).companies ∧
        n = personCount (⟨[⟨0, "Acme", "acme"⟩], [],
          [⟨0, "A", "A", "", "", 0, "", false⟩, ⟨1, "B", "B", "", "", 0, "", false⟩,
            ⟨2, "C", "C", "", "", 0, "", false⟩],
          [], [("employee_threshold", "2")], 1, 0, 3⟩ : DB) c.id ∧
        1 ≤ n ∧ (2 : Int) ≤ (n : Int))) ∧
    List.Sorted (fun a b => lexLE (ciKey a.1) (ciKey b.1) = true)
      [((⟨0, "Acme", "acme"⟩ : Company), 3)] :=
  (C7_companiesAboveThreshold_amended.1
    (⟨[⟨0, "Acme", "acme"⟩], [],
      [⟨0, "A", "A", "", "", 0, "", false⟩, ⟨1, "B", "B", "", "", 0, "", false⟩,
        ⟨2, "C", "C", "", "", 0, "", false⟩],
      [], [("employee_threshold", "2")], 1, 0, 3⟩ : DB)
    2 [((⟨0, "Acme", "acme"⟩ : Company), 3)] (by rfl) (by rfl))

/-! ### Component lemmas for the import pipeline -/

theorem add_person_fst (db : DB) (f l u e : String) (cid : Nat) (pos : String) :
    (add_person db f l u e cid pos).1 = db.nextPersonId := rfl

theorem add_person_people (db : DB) (f l u e : String) (cid : Nat) (pos : String) :
    (add_person db f l u e cid pos).2.people =
      db.people ++ [⟨db.nextPersonId, f, l, u, e, cid, pos, false⟩] := rfl

theorem add_person_companies (db : DB) (f l u e : String) (cid : Nat) (pos : String) :
    (add_person db f l u e cid pos).2.companies = db.companies := rfl

theorem add_person_pp (db : DB) (f l u e : String) (cid : Nat) (pos : String) :
    (add_person db f l u e cid pos).2.person_positions = db.person_positions := rfl

theorem add_person_next (db : DB) (f l u e : String) (cid : Nat) (pos : String) :
    (add_person db f l u e cid pos).2.nextPersonId = db.nextPersonId + 1 := rfl

theorem get_or_create_company_people (db : DB) (name : String) :
    (get_or_create_company db name).2.people = db.people := by
  cases hl : lookupCompany db (norm_company name) with
  | some i => rw [get_or_create_company_found hl]
  | none => rw [get_or_create_company_new hl]

theorem get_or_create_company_pp (db : DB) (name : String) :
    (get_or_create_company db name).2.person_positions = db.person_positions := by
  cases hl : lookupCompany db (norm_company name) with
  | some i => rw [get_or_create_company_found hl]
  | none => rw [get_or_create_company_new hl]

theorem get_or_create_company_next (db : DB) (name : String) :
    (get_or_create_company db name).2.nextPersonId = db.nextPersonId := by
  cases hl : lookupCompany db (norm_company name) with
  | some i => rw [get_or_create_company_found hl]
  | none => rw [get_or_create_company_new hl]

theorem lookupCompany_of_companies_eq {db db' : DB} (h : db'.companies = db.companies)
    (n : String) : lookupCompany db' n = lookupCompany db n := by
  unfold lookupCompany
  rw [h]

theorem lookupCompany_append {db : DB} {n : String} {i : Nat}
    (h : lookupCompany db n = some i) {db' : DB} {X : List Company}
    (hc : db'.companies = db.companies ++ X) : lookupCompany db' n = some i := by
  unfold lookupCompany at h ⊢
  rw [hc, List.find?_append]
  cases hf : db.companies.find? (fun c => c.name_norm = n) with
  | none => rw [hf] at h; exact absurd h (by simp)
  | some c =>
    rw [hf] at h
    simp only [Option.or]
    exact h

theorem get_or_create_company_lookup (db : DB) (name : String) :
    lookupCompany (get_or_create_company db name).2 (norm_company name) =
      some (get_or_create_company db name).1 := by
  cases hl : lookupCompany db (norm_company name) with
  | some i => rw [get_or_create_company_found hl]; exact hl
  | none =>
    rw [get_or_create_company_new hl]
    show ((db.companies ++
      ([⟨db.nextCompanyId, if name = "" then OTHER_NAME else name,
        norm_company name⟩] : List Company)).find?
        (fun c : Company => c.name_norm = norm_company name)).map
      (fun c : Company => c.id) = some db.nextCompanyId
    rw [List.find?_append]
    have hnone : db.companies.find? (fun c => decide (c.name_norm = norm_company name)) =
        none := by
      cases hf : db.companies.find? (fun c => decide (c.name_norm = norm_company name)) with
      | none => rfl
      | some c =>
        unfold lookupCompany at hl
        rw [hf] at hl
        exact absurd hl (by simp)
    rw [hnone]
    simp

theorem get_or_create_company_mon (db : DB) (name : String) :
    Mon db (get_or_create_company db name).2 := by
  cases hl : lookupCompany db (norm_company name) with
  | some i =>
    rw [get_or_create_company_found hl]
    exact ⟨fun n i h => h, fun p hp => hp⟩
  | none =>
    rw [get_or_create_company_new hl]
    refine ⟨fun n i h => lookupCompany_append h rfl, fun p hp => hp⟩

theorem linkOne_people (pid : Nat) (db : DB) (p : String) :
    (linkOne pid db p).people = db.people := by
  by_cases hb : stripChars p.data = []
  · rw [linkOne_blank hb]
  · cases hl : lookupPosition db (norm_position p) with
    | some i =>
      by_cases hm : (pid, i) ∈ db.person_positions
      · rw [linkOne_found_mem hb hl hm]
      · rw [linkOne_found_new hb hl hm]
    | none =>
      by_cases hm : (pid, db.nextPositionId) ∈ db.person_positions
      · rw [linkOne_new_mem hb hl hm]
      · rw [linkOne_new_new hb hl hm]

theorem linkOne_companies (pid : Nat) (db : DB) (p : String) :
    (linkOne pid db p).companies = db.companies := by
  by_cases hb : stripChars p.data = []
  · rw [linkOne_blank hb]
  · cases hl : lookupPosition db (norm_position p) with
    | some i =>
      by_cases hm : (pid, i) ∈ db.person_positions
      · rw [linkOne_found_mem hb hl hm]
      · rw [linkOne_found_new hb hl hm]
    | none =>
      by_cases hm : (pid, db.nextPositionId) ∈ db.person_positions
      · rw [linkOne_new_mem hb hl hm]
      · rw [linkOne_new_new hb hl hm]

theorem linkOne_next (pid : Nat) (db : DB) (p : String) :
    (linkOne pid db p).nextPersonId = db.nextPersonId := by
  by_cases hb : stripChars p.data = []
  · rw [linkOne_blank hb]
  · cases hl : lookupPosition db (norm_position p) with
    | some i =>
      by_cases hm : (pid, i) ∈ db.person_positions
      · rw [linkOne_found_mem hb hl hm]
      · rw [linkOne_found_new hb hl hm]
    | none =>
      by_cases hm : (pid, db.nextPositionId) ∈ db.person_positions
      · rw [linkOne_new_mem hb hl hm]
      · rw [linkOne_new_new hb hl hm]

theorem linkOne_pp (pid : Nat) (db : DB) (p : String) :
    ∃ ext, (linkOne pid db p).person_positions = db.person_positions ++ ext ∧
      ∀ x ∈ ext, x.1 = pid := by
  by_cases hb : stripChars p.data = []
  · rw [linkOne_blank hb]
    exact ⟨[], by simp, by simp⟩
  · cases hl : lookupPosition db (norm_position p) with
    | some i =>
      by_cases hm : (pid, i) ∈ db.person_positions
      · rw [linkOne_found_mem hb hl hm]
        exact ⟨[], by simp, by simp⟩
      · rw [linkOne_found_new hb hl hm]
        exact ⟨[(pid, i)], rfl, by simp⟩
    | none =>
      by_cases hm : (pid, db.nextPositionId) ∈ db.person_positions
      · rw [linkOne_new_mem hb hl hm]
        exact ⟨[], by simp, by simp⟩
      · rw [linkOne_new_new hb hl hm]
        exact ⟨[(pid, db.nextPositionId)], rfl, by simp⟩

theorem link_positions_people :
    ∀ (parts : List String) (db : DB) (pid : Nat),
    (link_positions db pid parts).people = db.people := by
  intro parts
  induction parts with
  | nil => intro db pid; rfl
  | cons p parts' ih =>
    intro db pid
    show (link_positions (linkOne pid db p) pid parts').people = db.people
    rw [ih, linkOne_people]

theorem link_positions_companies :
    ∀ (parts : List String) (db : DB) (pid : Nat),
    (link_positions db pid parts).companies = db.companies := by
  intro parts
  induction parts with
  | nil => intro db pid; rfl
  | cons p parts' ih =>
    intro db pid
    show (link_positions (linkOne pid db p) pid parts').companies = db.companies
    rw [ih, linkOne_companies]

theorem link_positions_next :
    ∀ (parts : List String) (db : DB) (pid : Nat),
    (link_positions db pid parts).nextPersonId = db.nextPersonId := by
  intro parts
  induction parts with
  | nil => intro db pid; rfl
  | cons p parts' ih =>
    intro db pid
    show (link_positions (linkOne pid db p) pid parts').nextPersonId = db.nextPersonId
    rw [ih, linkOne_next]

theorem link_positions_pp :
    ∀ (parts : List String) (db : DB) (pid : Nat),
    ∃ ext, (link_positions db pid parts).person_positions = db.person_positions ++ ext ∧
      ∀ x ∈ ext, x.1 = pid := by
  intro parts
  induction parts with
  | nil => intro db pid; exact ⟨[], by rw [List.append_nil]; rfl, by simp⟩
  | cons p parts' ih =>
    intro db pid
    obtain ⟨e1, he1, hb1⟩ := linkOne_pp pid db p
    obtain ⟨e2, he2, hb2⟩ := ih (linkOne pid db p) pid
    refine ⟨e1 ++ e2, ?_, ?_⟩
    · show (link_positions (linkOne pid db p) pid parts').person_positions = _
      rw [he2, he1, List.append_assoc]
    · intro x hx
      rcases List.mem_append.mp hx with h1 | h2
      · exact hb1 x h1
      · exact hb2 x h2

/-! ### Row-level lemmas for the import loop -/

theorem nonEmptyName_iff {r : Row} : nonEmptyName r = true ↔
    ¬(pyStrip (getField r "First Name") = "" ∧ pyStrip (getField r "Last Name") = "") := by
  unfold nonEmptyName
  simp only [Bool.not_eq_true', Bool.and_eq_false_iff, decide_eq_false_iff_not,
    Bool.not_eq_true]
  tauto

theorem person_exists_of_triple {db : DB} {f l u : String} {cid : Nat} (p : Person)
    (hp : p ∈ db.people) (h1 : p.first_name = f) (h2 : p.last_name = l)
    (h3 : p.company_id = cid) : person_exists db f l cid u = true :=
  (person_exists_iff db f l cid u).mpr (Or.inr ⟨p, hp, h1, h2, h3⟩)

theorem person_exists_mono {db db' : DB} (hmem : ∀ p, p ∈ db.people → p ∈ db'.people)
    {f l u : String} {cid : Nat} (h : person_exists db f l cid u = true) :
    person_exists db' f l cid u = true := by
  rw [person_exists_iff] at h ⊢
  rcases h with ⟨hu, p, hp, hurl⟩ | ⟨p, hp, hrest⟩
  · exact Or.inl ⟨hu, p, hmem p hp, hurl⟩
  · exact Or.inr ⟨p, hmem p hp, hrest⟩

theorem mon_refl (db : DB) : Mon db db := ⟨fun _ _ h => h, fun _ h => h⟩

theorem mon_trans {a b c : DB} (h1 : Mon a b) (h2 : Mon b c) : Mon a c :=
  ⟨fun n i h => h2.1 n i (h1.1 n i h), fun p hp => h2.2 p (h1.2 p hp)⟩

theorem rowSat_mon {db db' : DB} {r : Row} (hm : Mon db db') (h : rowSat db r) :
    rowSat db' r := by
  obtain ⟨cid, hl, hex⟩ := h
  exact ⟨cid, hm.1 _ _ hl, person_exists_mono hm.2 hex⟩

theorem mon_add_person (db : DB) (f l u e : String) (cid : Nat) (pos : String) :
    Mon db (add_person db f l u e cid pos).2 := by
  constructor
  · intro n i h
    rw [lookupCompany_of_companies_eq (add_person_companies db f l u e cid pos) n]
    exact h
  · intro p hp
    rw [add_person_people]
    exact List.mem_append.mpr (Or.inl hp)

theorem mon_link_positions (db : DB) (pid : Nat) (parts : List String) :
    Mon db (link_positions db pid parts) := by
  constructor
  · intro n i h
    rw [lookupCompany_of_companies_eq (link_positions_companies parts db pid) n]
    exact h
  · intro p hp
    rw [link_positions_people parts db pid]
    exact hp

theorem processRow_skip {st : DB × List String} {r : Row}
    (hne : nonEmptyName r = false) : processRow st r = st := by
  have hn : pyStrip (getField r "First Name") = "" ∧ pyStrip (getField r "Last Name") = "" := by
    unfold nonEmptyName at hne
    simpa using hne
  simp only [processRow]
  rw [if_pos hn]

theorem processRow_not_skip (st : DB × List String) {r : Row}
    (hn : ¬(pyStrip (getField r "First Name") = "" ∧ pyStrip (getField r "Last Name") = "")) :
    processRow st r =
      if person_exists (get_or_create_company st.1 (pyStrip (getField r "Company"))).2
          (pyStrip (getField r "First Name")) (pyStrip (getField r "Last Name"))
          (get_or_create_company st.1 (pyStrip (getField r "Company"))).1
          (pyStrip (getField r "URL")) = true
      then
        ((get_or_create_company st.1 (pyStrip (getField r "Company"))).2,
          st.2 ++ [dupName (pyStrip (getField r "First Name"))
            (pyStrip (getField r "Last Name"))])
      else
        (link_positions
          (add_person (get_or_create_company st.1 (pyStrip (getField r "Company"))).2
            (pyStrip (getField r "First Name")) (pyStrip (getField r "Last Name"))
            (pyStrip (getField r "URL")) (pyStrip (getField r "Email Address"))
            (get_or_create_company st.1 (pyStrip (getField r "Company"))).1
            (pyStrip (getField r "Position"))).2
          (add_person (get_or_create_company st.1 (pyStrip (getField r "Company"))).2
            (pyStrip (getField r "First Name")) (pyStrip (getField r "Last Name"))
            (pyStrip (getField r "URL")) (pyStrip (getField r "Email Address"))
            (get_or_create_company st.1 (pyStrip (getField r "Company"))).1
            (pyStrip (getField r "Position"))).1
          (splitPositions (pyStrip (getField r "Position"))),
        st.2) := by
  simp only [processRow]
  rw [if_neg hn]

theorem processRow_of_rowSat {st : DB × List String} {r : Row}
    (hne : nonEmptyName r = true) (hsat : rowSat st.1 r) :
    processRow st r =
      (st.1, st.2 ++ [dupName (pyStrip (getField r "First Name"))
        (pyStrip (getField r "Last Name"))]) := by
  obtain ⟨cid, hl, hex⟩ := hsat
  have hn := nonEmptyName_iff.mp hne
  rw [processRow_not_skip st hn]
  have hc := get_or_create_company_found hl
  simp only [hc]
  rw [if_pos hex]

theorem processRow_mon (st : DB × List String) (r : Row) :
    Mon st.1 (processRow st r).1 := by
  cases hne : nonEmptyName r with
  | false => rw [processRow_skip hne]; exact mon_refl st.1
  | true =>
    have hn := nonEmptyName_iff.mp hne
    rw [processRow_not_skip st hn]
    by_cases hex : person_exists (get_or_create_company st.1 (pyStrip (getField r "Company"))).2
        (pyStrip (getField r "First Name")) (pyStrip (getField r "Last Name"))
        (get_or_create_company st.1 (pyStrip (getField r "Company"))).1
        (pyStrip (getField r "URL")) = true
    · rw [if_pos hex]
      exact get_or_create_company_mon st.1 _
    · rw [if_neg hex]
      exact mon_trans (get_or_create_company_mon st.1 _)
        (mon_trans (mon_add_person _ _ _ _ _ _ _) (mon_link_positions _ _ _))

theorem processRow_establishes (st : DB × List String) {r : Row}
    (hne : nonEmptyName r = true) : rowSat (processRow st r).1 r := by
  have hn := nonEmptyName_iff.mp hne
  rw [processRow_not_skip st hn]
  by_cases hex : person_exists (get_or_create_company st.1 (pyStrip (getField r "Company"))).2
      (pyStrip (getField r "First Name")) (pyStrip (getField r "Last Name"))
      (get_or_create_company st.1 (pyStrip (getField r "Company"))).1
      (pyStrip (getField r "URL")) = true
  · rw [if_pos hex]
    exact ⟨(get_or_create_company st.1 (pyStrip (getField r "Company"))).1,
      get_or_create_company_lookup st.1 _, hex⟩
  · rw [if_neg hex]
    refine ⟨(get_or_create_company st.1 (pyStrip (getField r "Company"))).1, ?_, ?_⟩
    · have hceq : (link_positions
          (add_person (get_or_create_company st.1 (pyStrip (getField r "Company"))).2
            (pyStrip (getField r "First Name")) (pyStrip (getField r "Last Name"))
            (pyStrip (getField r "URL")) (pyStrip (getField r "Email Address"))
            (get_or_create_company st.1 (pyStrip (getField r "Company"))).1
            (pyStrip (getField r "Position"))).2
          (add_person (get_or_create_company st.1 (pyStrip (getField r "Company"))).2
            (pyStrip (getField r "First Name")) (pyStrip (getField r "Last Name"))
            (pyStrip (getField r "URL")) (pyStrip (getField r "Email Address"))
            (get_or_create_company st.1 (pyStrip (getField r "Company"))).1
            (pyStrip (getField r "Position"))).1
          (splitPositions (pyStrip (getField r "Position")))).companies =
        (get_or_create_company st.1 (pyStrip (getField r "Company"))).2.companies := by
        rw [link_positions_companies, add_person_companies]
      rw [lookupCompany_of_companies_eq hceq]
      exact get_or_create_company_lookup st.1 _
    · apply person_exists_of_triple
        (⟨(get_or_create_company st.1 (pyStrip (getField r "Company"))).2.nextPersonId,
          pyStrip (getField r "First Name"), pyStrip (getField r "Last Name"),
          pyStrip (getField r "URL"), pyStrip (getField r "Email Address"),
          (get_or_create_company st.1 (pyStrip (getField r "Company"))).1,
          pyStrip (getField r "Position"), false⟩)
      · rw [link_positions_people, add_person_people]
        exact List.mem_append.mpr (Or.inr (List.mem_singleton.mpr rfl))
      · rfl
      · rfl
      · rfl

theorem foldl_processRow_allSat :
    ∀ (L : List Row) (st : DB × List String),
    (∀ r ∈ L, nonEmptyName r = true → rowSat st.1 r) →
    ∃ ext, L.foldl processRow st = (st.1, st.2 ++ ext) ∧
      ext.length = L.countP nonEmptyName := by
  intro L
  induction L with
  | nil =>
    intro st _
    exact ⟨[], by simp, by simp⟩
  | cons r L' ih =>
    intro st hall
    rw [List.foldl_cons]
    cases hne : nonEmptyName r with
    | true =>
      rw [processRow_of_rowSat hne (hall r (List.mem_cons_self r L') hne)]
      obtain ⟨ext, hf, hl⟩ := ih
        (st.1, st.2 ++ [dupName (pyStrip (getField r "First Name"))
          (pyStrip (getField r "Last Name"))])
        (fun r' h' hne' => hall r' (List.mem_cons_of_mem r h') hne')
      refine ⟨dupName (pyStrip (getField r "First Name"))
        (pyStrip (getField r "Last Name")) :: ext, ?_, ?_⟩
      · rw [hf, List.append_assoc, List.singleton_append]
      · rw [List.countP_cons, hne]
        simp [hl]
    | false =>
      rw [processRow_skip hne]
      obtain ⟨ext, hf, hl⟩ := ih st
        (fun r' h' hne' => hall r' (List.mem_cons_of_mem r h') hne')
      refine ⟨ext, hf, ?_⟩
      rw [List.countP_cons, hne]
      simp [hl]

theorem foldl_processRow_pass1 :
    ∀ (L : List Row) (st : DB × List String),
      Mon st.1 (L.foldl processRow st).1 ∧
      ∀ r ∈ L, nonEmptyName r = true → rowSat (L.foldl processRow st).1 r := by
  intro L
  induction L with
  | nil => intro st; exact ⟨mon_refl st.1, by simp⟩
  | cons r L' ih =>
    intro st
    rw [List.foldl_cons]
    refine ⟨mon_trans (processRow_mon st r) (ih (processRow st r)).1, ?_⟩
    intro r' hr' hne
    rcases List.mem_cons.mp hr' with rfl | hmem
    · exact rowSat_mon (ih (processRow st r')).1 (processRow_establishes st hne)
    · exact (ih (processRow st r)).2 r' hmem hne

/-! ### Claim C2 -/

/-- C2: importing the identical parsed file a second time, against the store
produced by the first run, creates zero new Person rows (the second store's
people equal the first's) and returns a duplicates list whose length is the
number of data rows whose trimmed First and Last Name are not both empty. -/
theorem C2_import_twice_dedups (rows : List (List String)) (db : DB)
    (hrows : rows ≠ []) :
    ∃ d1 db1 d2 db2,
      import_csv rows db = some (d1, db1) ∧
      import_csv rows db1 = some (d2, db2) ∧
      db2.people = db1.people ∧
      d2.length = (dataRows rows).countP nonEmptyName := by
  have h1 : import_csv rows db =
      some (((dataRows rows).foldl processRow (db, [])).2,
        ((dataRows rows).foldl processRow (db, [])).1) := by
    unfold import_csv
    rw [if_neg hrows]
  obtain ⟨hmon, hsat⟩ := foldl_processRow_pass1 (dataRows rows) (db, [])
  obtain ⟨ext, hf2, hlen⟩ := foldl_processRow_allSat (dataRows rows)
    (((dataRows rows).foldl processRow (db, [])).1, [])
    (fun r hr hne => hsat r hr hne)
  have h2 : import_csv rows (((dataRows rows).foldl processRow (db, [])).1) =
      some (((dataRows rows).foldl processRow
          ((((dataRows rows).foldl processRow (db, [])).1), [])).2,
        ((dataRows rows).foldl processRow
          ((((dataRows rows).foldl processRow (db, [])).1), [])).1) := by
    unfold import_csv
    rw [if_neg hrows]
  refine ⟨((dataRows rows).foldl processRow (db, [])).2,
    ((dataRows rows).foldl processRow (db, [])).1,
    ext,
    ((dataRows rows).foldl processRow (db, [])).1,
    h1, ?_, rfl, hlen⟩
  rw [h2, hf2]
  simp

/-- C2 witness: the theorem applied to a concrete one-row file imported into
the empty store. -/
theorem C2_witness :
    ∃ d1 db1 d2 db2,
      import_csv
        [["First Name", "Last Name", "URL", "Email Address", "Company", "Position",
          "Connected On"],
         ["Ann", "Bell", "", "", "Acme", "Dev", "x"]] emptyDB = some (d1, db1) ∧
      import_csv
        [["First Name", "Last Name", "URL", "Email Address", "Company", "Position",
          "Connected On"],
         ["Ann", "Bell", "", "", "Acme", "Dev", "x"]] db1 = some (d2, db2) ∧
      db2.people = db1.people ∧
      d2.length =
        (dataRows
          [["First Name", "Last Name", "URL", "Email Address", "Company", "Position",
            "Connected On"],
           ["Ann", "Bell", "", "", "Acme", "Dev", "x"]]).countP nonEmptyName :=
  C2_import_twice_dedups _ emptyDB (by decide)

/-! ### Claim C9 -/

theorem extdb_refl (db : DB) : ExtDB db db :=
  ⟨⟨[], by simp⟩, le_refl _, ⟨[], by simp, by simp⟩⟩

theorem extdb_trans {a b c : DB} (h1 : ExtDB a b) (h2 : ExtDB b c) : ExtDB a c := by
  obtain ⟨⟨ns1, hp1⟩, hle1, ⟨nl1, hpp1, hb1⟩⟩ := h1
  obtain ⟨⟨ns2, hp2⟩, hle2, ⟨nl2, hpp2, hb2⟩⟩ := h2
  refine ⟨⟨ns1 ++ ns2, by rw [hp2, hp1, List.append_assoc]⟩, le_trans hle1 hle2,
    ⟨nl1 ++ nl2, by rw [hpp2, hpp1, List.append_assoc], ?_⟩⟩
  intro x hx
  rcases List.mem_append.mp hx with h | h
  · exact hb1 x h
  · exact le_trans hle1 (hb2 x h)

theorem extdb_company (db : DB) (name : String) :
    ExtDB db (get_or_create_company db name).2 := by
  refine ⟨⟨[], ?_⟩, ?_, ⟨[], ?_, by simp⟩⟩
  · rw [get_or_create_company_people, List.append_nil]
  · rw [get_or_create_company_next]
  · rw [get_or_create_company_pp, List.append_nil]

theorem extdb_add_branch (db : DB) (f l u e pos : String) (cid : Nat)
    (parts : List String) (db1 : DB) (hpeq : db1.people = db.people)
    (hneq : db1.nextPersonId = db.nextPersonId)
    (hppq : db1.person_positions = db.person_positions) :
    ExtDB db (link_positions (add_person db1 f l u e cid pos).2
      (add_person db1 f l u e cid pos).1 parts) := by
  refine ⟨⟨[⟨db1.nextPersonId, f, l, u, e, cid, pos, false⟩], ?_⟩, ?_, ?_⟩
  · rw [link_positions_people, add_person_people, hpeq]
  · rw [link_positions_next, add_person_next, hneq]
    omega
  · obtain ⟨ext, hpp, hb⟩ := link_positions_pp parts (add_person db1 f l u e cid pos).2
      (add_person db1 f l u e cid pos).1
    refine ⟨ext, ?_, ?_⟩
    · rw [hpp, add_person_pp, hppq]
    · intro x hx
      rw [hb x hx, add_person_fst, hneq]

theorem processRow_ext (st : DB × List String) (r : Row) :
    ExtDB st.1 (processRow st r).1 := by
  cases hne : nonEmptyName r with
  | false => rw [processRow_skip hne]; exact extdb_refl st.1
  | true =>
    have hn := nonEmptyName_iff.mp hne
    rw [processRow_not_skip st hn]
    by_cases hex : person_exists (get_or_create_company st.1 (pyStrip (getField r "Company"))).2
        (pyStrip (getField r "First Name")) (pyStrip (getField r "Last Name"))
        (get_or_create_company st.1 (pyStrip (getField r "Company"))).1
        (pyStrip (getField r "URL")) = true
    · rw [if_pos hex]
      exact extdb_company st.1 _
    · rw [if_neg hex]
      exact extdb_add_branch st.1 _ _ _ _ _ _ _ _
        (get_or_create_company_people st.1 _)
        (get_or_create_company_next st.1 _)
        (get_or_create_company_pp st.1 _)

theorem foldl_processRow_ext :
    ∀ (L : List Row) (st : DB × List String), ExtDB st.1 (L.foldl processRow st).1 := by
  intro L
  induction L with
  | nil => intro st; exact extdb_refl st.1
  | cons r L' ih =>
    intro st
    rw [List.foldl_cons]
    exact extdb_trans (processRow_ext st r) (ih (processRow st r))

/-- C9: an import never modifies or deletes a pre-existing Person row: people
are only appended (so every old row, with all its fields including `visited`,
survives unchanged), and the position links of every pre-existing person are
exactly what they were before the import. -/
theorem C9_import_only_inserts (rows : List (List String)) (db : DB)
    (res : List String × DB)
    (hwf : ∀ p ∈ db.people, p.id < db.nextPersonId)
    (h : import_csv rows db = some res) :
    (∃ ns, res.2.people = db.people ++ ns) ∧
    (∀ p ∈ db.people,
      res.2.person_positions.filter (fun x => x.1 = p.id) =
        db.person_positions.filter (fun x => x.1 = p.id)) := by
  unfold import_csv at h
  by_cases hrows : rows = []
  · rw [if_pos hrows] at h
    exact absurd h (by simp)
  · rw [if_neg hrows] at h
    injection h with h
    subst h
    obtain ⟨⟨ns, hp⟩, hle, ⟨nl, hpp, hb⟩⟩ := foldl_processRow_ext (dataRows rows) (db, [])
    constructor
    · exact ⟨ns, hp⟩
    · intro p hp'
      show ((dataRows rows).foldl processRow (db, [])).1.person_positions.filter _ = _
      rw [hpp, List.filter_append]
      have hnl : nl.filter (fun x => decide (x.1 = p.id)) = [] := by
        rw [List.filter_eq_nil_iff]
        intro x hx
        have h1 : db.nextPersonId ≤ x.1 := hb x hx
        have h2 := hwf p hp'
        simp only [decide_eq_true_eq]
        omega
      rw [hnl, List.append_nil]

/-- C9 witness: the frame theorem applied to a concrete one-row import into a
store that already holds a visited person with one position link. -/
theorem C9_witness :
    (∃ ns,
      (⟨[⟨0, "Acme", "acme"⟩], [⟨0, "Dev", "dev"⟩],
        [⟨0, "Old", "One", "", "", 5, "", true⟩, ⟨1, "New", "Two", "", "", 0, "Dev", false⟩],
        [(0, 7), (1, 0)], [], 1, 1, 2⟩ : DB).people =
      (⟨[], [], [⟨0, "Old", "One", "", "", 5, "", true⟩], [(0, 7)], [], 0, 0, 1⟩ : DB).people ++
        ns) ∧
    (∀ p ∈ (⟨[], [], [⟨0, "Old", "One", "", "", 5, "", true⟩], [(0, 7)], [], 0, 0,
        1⟩ : DB).people,
      (⟨[⟨0, "Acme", "acme"⟩], [⟨0, "Dev", "dev"⟩],
        [⟨0, "Old", "One", "", "", 5, "", true⟩, ⟨1, "New", "Two", "", "", 0, "Dev", false⟩],
        [(0, 7), (1, 0)], [], 1, 1, 2⟩ : DB).person_positions.filter
          (fun x => x.1 = p.id) =
        (⟨[], [], [⟨0, "Old", "One", "", "", 5, "", true⟩], [(0, 7)], [], 0, 0,
          1⟩ : DB).person_positions.filter (fun x => x.1 = p.id)) :=
  C9_import_only_inserts
    [["First Name", "Last Name", "URL", "Email Address", "Company", "Position",
      "Connected On"],
     ["New", "Two", "", "", "Acme", "Dev", "x"]]
    (⟨[], [], [⟨0, "Old", "One", "", "", 5, "", true⟩], [(0, 7)], [], 0, 0, 1⟩ : DB)
    ([],
      ⟨[⟨0, "Acme", "acme"⟩], [⟨0, "Dev", "dev"⟩],
        [⟨0, "Old", "One", "", "", 5, "", true⟩, ⟨1, "New", "Two", "", "", 0, "Dev", false⟩],
        [(0, 7), (1, 0)], [], 1, 1, 2⟩)
    (by decide) (by rfl)


end ConnectionsHelper
